import Mathlib

/-!
Shallow embedding of the `isa-interpreter` repository (Rust), covering the
instruction model and parser (`src/instruction.rs`), the memory subsystems
(`src/memory_subsystem.rs`), the dependency graph (`src/dependency_graph.rs`)
and the execution engines (`src/thread_subsystem.rs`).

Conventions used throughout:
* Rust `usize` is embedded as `Nat`; the spec restricts the numeric domain to
  non-negative machine words and declares overflow out of scope, so word
  wrap-around is not modelled.  Operations that panic in Rust (`-` underflow,
  `/ 0`, `unwrap` on `None`/`Err`, explicit `panic!` calls, out-of-bounds
  indexing) are embedded as `Option`-returning functions where `none` marks
  the panic.
* Rust `HashMap` is embedded as a function into `Option`, `VecDeque` as a
  `List` with its front at the head, `Vec::push` as appending at the tail.
* Graph nodes live behind `Rc<RefCell<...>>` in the source and are compared
  by their textual id (`"{t}-{l}"` / `"prop_{t}-{l}"`) in `add_dependency`
  and by pointer in `remove_node`.  The id formatting is injective, so ids
  are embedded as a structured type `NodeId` with decidable equality, and the
  graph as a list of nodes addressed by id.
-/

namespace ISAInterp

/-- `ArithCommand` from src/instruction.rs. -/
inductive ArithCommand where
  | add
  | sub
  | mul
  | div
deriving DecidableEq, Repr

/-- `ArithCommand::apply`.  `lhs - rhs` panics on underflow and `lhs / rhs`
panics on a zero divisor in Rust; both panics are embedded as `none`. -/
def ArithCommand.apply (c : ArithCommand) (lhs rhs : Nat) : Option Nat :=
  match c with
  | .add => some (lhs + rhs)
  | .sub => if rhs ≤ lhs then some (lhs - rhs) else none
  | .mul => some (lhs * rhs)
  | .div => if rhs = 0 then none else some (lhs / rhs)

/-- `MemoryAccessMode` from src/instruction.rs. -/
inductive MemoryAccessMode where
  | seqCst
  | rel
  | acq
  | relAcq
  | rlx
deriving DecidableEq, Repr

/-- `Reference` from src/instruction.rs. -/
inductive Reference where
  | register (name : String)
  | memory (name : String)
deriving DecidableEq, Repr

/-- `Reference::from_str`: a token beginning with `#` is a memory reference,
anything else a register.  The source never returns `Err`. -/
def Reference.fromStr (cmd : String) : Reference :=
  match cmd.data with
  | '#' :: rest => .memory (String.mk rest)
  | _ => .register cmd

/-- `Instruction` from src/instruction.rs. -/
inductive Instruction where
  | assignConst (dst : Reference) (n : Nat)
  | assignOperation (dst lhs : Reference) (op : ArithCommand) (rhs : Reference)
  | conditionalJump (cond : Reference) (label : String)
  | load (mode : MemoryAccessMode) (addr dst : Reference)
  | store (mode : MemoryAccessMode) (src addr : Reference)
  | cas (dst : Reference) (mode : MemoryAccessMode) (addr expected desired : Reference)
  | fai (dst : Reference) (mode : MemoryAccessMode) (addr incr : Reference)
  | fence (mode : MemoryAccessMode)
deriving DecidableEq, Repr

/-- `LabeledInstruction` from src/instruction.rs. -/
structure LabeledInstruction where
  label : Option String
  instruction : Instruction
  lineIndex : Nat
  threadId : Nat
deriving DecidableEq, Repr

/-- `Error` from src/instruction.rs. -/
inductive Error where
  | invalidCommand (s : String)
  | invalidInstruction (s : String)
deriving DecidableEq, Repr

/-- Decidable equality for `Except` results of the parser. -/
instance {e a : Type} [DecidableEq e] [DecidableEq a] : DecidableEq (Except e a) :=
  fun x y =>
    match x, y with
    | .error u, .error v =>
      if h : u = v then .isTrue (by rw [h]) else .isFalse (by intro hc; cases hc; exact h rfl)
    | .ok u, .ok v =>
      if h : u = v then .isTrue (by rw [h]) else .isFalse (by intro hc; cases hc; exact h rfl)
    | .error _, .ok _ => .isFalse (by intro hc; cases hc)
    | .ok _, .error _ => .isFalse (by intro hc; cases hc)

/-- `Command` from src/instruction.rs.  `If` and `Goto` are renamed `ifKw`
and `gotoKw` because `if` is a Lean keyword. -/
inductive Command where
  | arith (c : ArithCommand)
  | ref (r : Reference)
  | number (n : Nat)
  | memoryAccess (m : MemoryAccessMode)
  | eq
  | assign
  | load
  | store
  | ifKw
  | gotoKw
  | fence
  | cas
  | fai
  | label (s : String)
deriving DecidableEq, Repr

/-- Rust's `str::parse::<usize>` restricted to the inputs reachable from
`Command::from_str` (first byte an ASCII digit, hence no sign prefix):
succeeds exactly when every character is a decimal digit.  Word overflow of
huge literals is not modelled (spec: numeric domain is out of scope). -/
def parseNatDigits (s : String) : Option Nat :=
  s.data.foldl
    (fun acc c =>
      match acc with
      | none => none
      | some n => if c.isDigit then some (n * 10 + (c.toNat - '0'.toNat)) else none)
    (if s.data.isEmpty then none else some (0 : Nat))

/-- `Command::from_str`.  The outer `none` embeds the panic of
`.first().unwrap()` on an empty token (unreachable: tokens produced by
`split_whitespace` are non-empty). -/
def Command.fromStr (cmd : String) : Option (Except Error Command) :=
  match cmd with
  | "+" => some (.ok (.arith .add))
  | "-" => some (.ok (.arith .sub))
  | "/" => some (.ok (.arith .div))
  | "*" => some (.ok (.arith .mul))
  | "SEQ_CST" => some (.ok (.memoryAccess .seqCst))
  | "REL" => some (.ok (.memoryAccess .rel))
  | "ACQ" => some (.ok (.memoryAccess .acq))
  | "REL_ACQ" => some (.ok (.memoryAccess .relAcq))
  | "RLX" => some (.ok (.memoryAccess .rlx))
  | "=" => some (.ok .eq)
  | ":=" => some (.ok .assign)
  | "load" => some (.ok .load)
  | "store" => some (.ok .store)
  | "if" => some (.ok .ifKw)
  | "goto" => some (.ok .gotoKw)
  | "fence" => some (.ok .fence)
  | "cas" => some (.ok .cas)
  | "fai" => some (.ok .fai)
  | _ =>
    match cmd.data with
    | [] => none
    | c :: _ =>
      if c.isDigit then
        match parseNatDigits cmd with
        | some n => some (.ok (.number n))
        | none => some (.error (.invalidCommand cmd))
      else
        some (.ok (.ref (Reference.fromStr cmd)))

/-- Rust's `str::split_whitespace`: split on whitespace, dropping empty
tokens (implemented structurally over the character list so that it reduces
in the kernel). -/
def splitWhitespace (s : String) : List String :=
  let groups := s.data.foldr
    (fun c acc =>
      if c.isWhitespace then [] :: acc
      else
        match acc with
        | [] => [[c]]
        | t :: ts => (c :: t) :: ts)
    []
  (groups.map String.mk).filter (fun t => t ≠ "")

/-- Join tokens with single spaces: `Vec::join(" ")`. -/
def joinSpace : List String → String
  | [] => ""
  | [t] => t
  | t :: rest => t ++ " " ++ joinSpace rest

/-- Rust's `str::trim` (strip leading and trailing whitespace). -/
def trimString (s : String) : String :=
  String.mk (((s.data.dropWhile Char.isWhitespace).reverse.dropWhile
    Char.isWhitespace).reverse)

/-- `str_to_commands` inside `Instruction::from_str`.  The source maps
`cmd.parse::<Command>().unwrap()` over the tokens, so a token whose parse
returns `Err(InvalidCommand)` makes the whole function PANIC (embedded as
`none`) instead of propagating the error. -/
def strToCommands (cmd : String) : Option (List Command) :=
  (splitWhitespace cmd).mapM
    (fun t =>
      match Command.fromStr t with
      | some (Except.ok c) => some c
      | some (Except.error _) => none
      | none => none)

/-- `Instruction::from_str`: tokenize, then match the token sequence against
the recognized instruction shapes. -/
def Instruction.fromStr (cmd : String) : Option (Except Error Instruction) :=
  (strToCommands cmd).map (fun commands =>
    match commands with
    | [Command.ref ref1, Command.eq, Command.number num] =>
      .ok (.assignConst ref1 num)
    | [Command.ref ref1, Command.eq, Command.ref ref2, Command.arith c, Command.ref ref3] =>
      .ok (.assignOperation ref1 ref2 c ref3)
    | [Command.ifKw, Command.ref ref1, Command.gotoKw, Command.ref (Reference.register lbl)] =>
      .ok (.conditionalJump ref1 lbl)
    | [Command.load, Command.memoryAccess memAccess, Command.ref addr, Command.ref reg] =>
      .ok (.load memAccess addr reg)
    | [Command.store, Command.memoryAccess memAccess, Command.ref addr, Command.ref reg] =>
      .ok (.store memAccess addr reg)
    | [Command.ref ref1, Command.assign, Command.cas, Command.memoryAccess memAccess,
       Command.ref ref2, Command.ref ref3, Command.ref ref4] =>
      .ok (.cas ref1 memAccess ref2 ref3 ref4)
    | [Command.ref ref1, Command.assign, Command.fai, Command.memoryAccess memAccess,
       Command.ref ref2, Command.ref ref3] =>
      .ok (.fai ref1 memAccess ref2 ref3)
    | [Command.fence, Command.memoryAccess memAccess] =>
      .ok (.fence memAccess)
    | _ => .error (.invalidInstruction cmd))

/-- `LabeledInstruction::label`: split off a leading `name:` token.  The
source panics (`first().unwrap()`) on a line with no tokens, embedded as
`none`; `replace(":", "")` removes every colon of the label token. -/
def labelSplit (cmd : String) : Option (Option String × String) :=
  match splitWhitespace cmd with
  | [] => none
  | first :: rest =>
    if first.data.getLast? = some ':' then
      some (some (String.mk (first.data.filter (fun c => c ≠ ':'))),
            joinSpace rest)
    else
      some (none, joinSpace (first :: rest))

/-- `LabeledInstruction::from_str` (`FromStr`): parse with `line_index = 0`,
`thread_id = 0`. -/
def LabeledInstruction.fromStr (cmd : String) : Option (Except Error LabeledInstruction) :=
  match labelSplit cmd with
  | none => none
  | some (lbl, rest) =>
    (Instruction.fromStr rest).map
      (fun r => r.map (fun ins => ⟨lbl, ins, 0, 0⟩))

/-- `parse_program` from src/utils.rs over the list of lines of one file:
trim, skip blank lines, parse each retained line, assign `line_index` as the
position in the retained list.  A parse error aborts via `.expect` (none). -/
def parseProgram (lines : List String) (threadId : Nat) :
    Option (List LabeledInstruction) :=
  lines.foldlM
    (fun program line =>
      let instruction := trimString line
      if instruction = "" then some program
      else
        match LabeledInstruction.fromStr instruction with
        | some (Except.ok parsed) =>
          some (program ++ [⟨parsed.label, parsed.instruction, program.length, threadId⟩])
        | some (Except.error _) => none
        | none => none)
    []

/-! ## Memory subsystems (src/memory_subsystem.rs) -/

/-- `WriteOperation` from src/instruction.rs. -/
structure WriteOperation where
  addr : String
  value : Nat
deriving DecidableEq, Repr

/-- `Memory`: a `HashMap<String, usize>`, embedded as a function into
`Option Nat`. -/
structure Memory where
  data : String → Option Nat

/-- `Memory::new`. -/
def Memory.new : Memory := ⟨fun _ => none⟩

/-- `Memory::load`: `get(addr).unwrap_or(&0)`. -/
def Memory.load (m : Memory) (addr : String) : Nat :=
  (m.data addr).getD 0

/-- `Memory::store`: `insert(addr, value)`. -/
def Memory.store (m : Memory) (addr : String) (value : Nat) : Memory :=
  ⟨fun a => if a = addr then some value else m.data a⟩

/-- `Registers` from src/thread_subsystem.rs: a `HashMap<usize, Memory>` of
per-thread register banks. -/
structure Registers where
  registers : Nat → Option Memory

/-- `Registers::load`: `get(&thread_id).unwrap().load(addr)`; the `unwrap`
on a missing bank is embedded as `none`. -/
def Registers.load (r : Registers) (addr : String) (threadId : Nat) : Option Nat :=
  (r.registers threadId).map (fun m => m.load addr)

/-- `Registers::store`: `get_mut(&thread_id).unwrap().store(addr, value)`. -/
def Registers.store (r : Registers) (addr : String) (value : Nat) (threadId : Nat) :
    Option Registers :=
  (r.registers threadId).map
    (fun m => ⟨fun t => if t = threadId then some (m.store addr value) else r.registers t⟩)

/-- `SCMemorySubsystem`. -/
structure SCMemorySubsystem where
  memory : Memory

def SCMemorySubsystem.new : SCMemorySubsystem := ⟨Memory.new⟩

def SCMemorySubsystem.store (m : SCMemorySubsystem) (addr : String) (value : Nat)
    (_threadId : Nat) : SCMemorySubsystem :=
  ⟨m.memory.store addr value⟩

def SCMemorySubsystem.load (m : SCMemorySubsystem) (addr : String) (_threadId : Nat) : Nat :=
  m.memory.load addr

/-- `Buffer::load`: scan the FIFO from the back (most recently pushed first)
for a write to `addr`. -/
def Buffer.load (operations : List WriteOperation) (addr : String) : Option Nat :=
  (operations.reverse.find? (fun op => op.addr = addr)).map (fun op => op.value)

/-- `TSOMemorySubsystem`: main memory plus a `HashMap<usize, Buffer>` of
per-thread FIFO store buffers (`VecDeque` front at the list head). -/
structure TSOMemorySubsystem where
  memory : Memory
  buffers : Nat → Option (List WriteOperation)

def TSOMemorySubsystem.new : TSOMemorySubsystem :=
  ⟨Memory.new, fun _ => none⟩

/-- `TSOMemorySubsystem::store`: `entry(thread_id).or_insert(Buffer::new())`
then `push_back`. -/
def TSOMemorySubsystem.store (m : TSOMemorySubsystem) (addr : String) (value : Nat)
    (threadId : Nat) : TSOMemorySubsystem :=
  let buf := (m.buffers threadId).getD []
  ⟨m.memory, fun t => if t = threadId then some (buf ++ [⟨addr, value⟩]) else m.buffers t⟩

/-- `TSOMemorySubsystem::load`: the invoking thread's buffered value for the
address if any, otherwise main memory. -/
def TSOMemorySubsystem.load (m : TSOMemorySubsystem) (addr : String) (threadId : Nat) : Nat :=
  ((m.buffers threadId).bind (fun buffer => Buffer.load buffer addr)).getD
    (m.memory.load addr)

/-- `TSOMemorySubsystem::propagate`: `buffers.get_mut(&thread_id).unwrap()`
(panic, i.e. `none`, when the thread never stored), then `pop_front`; only a
popped write is applied to main memory. -/
def TSOMemorySubsystem.propagate (m : TSOMemorySubsystem) (threadId : Nat) :
    Option TSOMemorySubsystem :=
  match m.buffers threadId with
  | none => none
  | some operations =>
    match operations with
    | [] => some m
    | w :: rest =>
      some ⟨m.memory.store w.addr w.value,
            fun t => if t = threadId then some rest else m.buffers t⟩

/-! ## Dependency graph (src/dependency_graph.rs) -/

/-- Node ids.  The source uses the strings `"{thread_id}-{line_index}"` for
instruction nodes and `"prop_{thread_id}-{line_index}"` for propagate nodes;
that formatting is injective, so ids are embedded structurally. -/
inductive NodeId where
  | instrId (threadId lineIndex : Nat)
  | propId (threadId lineIndex : Nat)
deriving DecidableEq, Repr

/-- `Propagate` from src/dependency_graph.rs. -/
structure Propagate where
  associatedWrite : LabeledInstruction
  toLocation : Reference
deriving DecidableEq, Repr

/-- `NodeType`. -/
inductive NodeType where
  | instruction (li : LabeledInstruction)
  | propagate (p : Propagate)
deriving DecidableEq, Repr

/-- `LabeledInstruction::id` / `Propagate::id` / `NodeType::id`. -/
def NodeType.id : NodeType → NodeId
  | .instruction li => .instrId li.threadId li.lineIndex
  | .propagate p => .propId p.associatedWrite.threadId p.associatedWrite.lineIndex

/-- `NodeType::thread_id`. -/
def NodeType.threadId : NodeType → Nat
  | .instruction li => li.threadId
  | .propagate p => p.associatedWrite.threadId

/-- `InstructionNode`: a graph node with its two edge lists.  The `Rc`
references of the source are embedded as node ids. -/
structure InstructionNode where
  instruction : NodeType
  dependsOn : List NodeId
  dependsOnMe : List NodeId
deriving DecidableEq, Repr

/-- `DependencyGraph`. -/
structure DependencyGraph where
  nodes : List InstructionNode
deriving DecidableEq, Repr

def DependencyGraph.new : DependencyGraph := ⟨[]⟩

/-- Look a node up by id (the embedding of dereferencing an `Rc` handle). -/
def DependencyGraph.findNode (g : DependencyGraph) (i : NodeId) : Option InstructionNode :=
  g.nodes.find? (fun n => decide (n.instruction.id = i))

/-- The per-node effect of `InstructionNode::add_dependency`'s two `Rc`
mutations: push `toId` onto the from-node's `depends_on` and `fr` onto the
to-node's `depends_on_me`. -/
def addEdgeUpdate (fr toId : NodeId) (n : InstructionNode) : InstructionNode :=
  let n1 := if n.instruction.id = fr then
      { n with dependsOn := n.dependsOn ++ [toId] } else n
  if n1.instruction.id = toId then
      { n1 with dependsOnMe := n1.dependsOnMe ++ [fr] } else n1

/-- `InstructionNode::add_dependency`: a no-op when `to` is already among
`from`'s dependencies (compared by id); otherwise push `to` onto
`from.depends_on` and `from` onto `to.depends_on_me`. -/
def DependencyGraph.addDependency (g : DependencyGraph) (fr toId : NodeId) : DependencyGraph :=
  match g.findNode fr with
  | none => g
  | some fnode =>
    if toId ∈ fnode.dependsOn then g
    else ⟨g.nodes.map (addEdgeUpdate fr toId)⟩

/-- `DependencyGraph::add_node`. -/
def DependencyGraph.addNode (g : DependencyGraph) (instruction : LabeledInstruction) :
    DependencyGraph :=
  ⟨g.nodes ++ [⟨.instruction instruction, [], []⟩]⟩

/-- `DependencyGraph::add_propagate`. -/
def DependencyGraph.addPropagate (g : DependencyGraph) (write : LabeledInstruction)
    (toLocation : Reference) : DependencyGraph :=
  ⟨g.nodes ++ [⟨.propagate ⟨write, toLocation⟩, [], []⟩]⟩

/-- One step of `dfs_filter_aux`, with explicit fuel bounding the recursion
depth.  The state is the pair (visited ids, result ids).  Fuel exhaustion
(`0`) never happens in the source: along any chain of nested calls each level
marks a previously unvisited node of the graph, so the depth is bounded by
the node count, and `dfs_filter` supplies fuel `nodes.length + 1`.  The
`findNode = none` branch is likewise unreachable from the source (every edge
id denotes a live graph node). -/
def DependencyGraph.dfsFilterAux (g : DependencyGraph) (p : NodeType → Bool) :
    Nat → NodeId → List NodeId × List NodeId → List NodeId × List NodeId
  | 0, _, st => st
  | fuel + 1, nid, (visited, result) =>
    if nid ∈ visited then (visited, result)
    else
      match g.findNode nid with
      | none => (nid :: visited, result)
      | some node =>
        let visited1 := nid :: visited
        let result1 := if p node.instruction then result ++ [nid] else result
        node.dependsOn.foldl (fun st d => g.dfsFilterAux p fuel d st) (visited1, result1)

/-- `DependencyGraph::dfs_filter`: run the DFS from every node of the graph
with a shared visited set; return the ids of the collected nodes. -/
def DependencyGraph.dfsFilter (g : DependencyGraph) (p : NodeType → Bool) : List NodeId :=
  (g.nodes.foldl
    (fun st n => g.dfsFilterAux p (g.nodes.length + 1) n.instruction.id st)
    ([], [])).2

/-- `DependencyGraph::get_leaves`. -/
def DependencyGraph.getLeaves (g : DependencyGraph) : List InstructionNode :=
  g.nodes.filter (fun n => n.dependsOn.isEmpty)

/-- `add_rel_deps`: every same-thread instruction node with a larger
`line_index` comes to depend on `cur_node`. -/
def DependencyGraph.addRelDeps (g : DependencyGraph) (curNode : InstructionNode) :
    DependencyGraph :=
  match curNode.instruction with
  | .instruction curInstr =>
    let depended := g.dfsFilter (fun other =>
      match other with
      | .instruction otherInstr =>
        decide (curInstr.threadId = otherInstr.threadId) &&
          decide (curInstr.lineIndex < otherInstr.lineIndex)
      | _ => false)
    depended.foldl (fun g2 d => g2.addDependency d curNode.instruction.id) g
  | _ => g

/-- `add_acq_deps`: `cur_node` comes to depend on every same-thread
instruction node with a smaller `line_index`. -/
def DependencyGraph.addAcqDeps (g : DependencyGraph) (curNode : InstructionNode) :
    DependencyGraph :=
  match curNode.instruction with
  | .instruction curInstr =>
    let dependant := g.dfsFilter (fun other =>
      match other with
      | .instruction otherInstr =>
        decide (curInstr.threadId = otherInstr.threadId) &&
          decide (curInstr.lineIndex > otherInstr.lineIndex)
      | _ => false)
    dependant.foldl (fun g2 d => g2.addDependency curNode.instruction.id d) g
  | _ => g

/-- `get_access_mode_seq_cst` (nested in `add_dependencies`): downgrade a
shown `SEQ_CST` mode per instruction kind; note that the catch-all arm maps
every other instruction — including `Fence` — to `RLX`. -/
def getAccessModeSeqCst (instruction : Instruction) (prevAm : MemoryAccessMode) :
    MemoryAccessMode :=
  match instruction with
  | .load am _ _ => if am = .seqCst then .acq else prevAm
  | .store am _ _ => if am = .seqCst then .rel else prevAm
  | .cas _ am _ _ _ => if am = .seqCst then .relAcq else prevAm
  | .fai _ am _ _ => if am = .seqCst then .relAcq else prevAm
  | _ => .rlx

/-- `DependencyGraph::add_dependencies` for the node at `nodeIndex`. -/
def DependencyGraph.addDependencies (g : DependencyGraph) (nodeIndex : Nat) :
    DependencyGraph :=
  match g.nodes[nodeIndex]? with
  | none => g
  | some node =>
    match node.instruction with
    | .instruction instruction =>
      match instruction.instruction with
      | .load am _ _ | .store am _ _ | .cas _ am _ _ _ | .fai _ am _ _ | .fence am =>
        let modifiedAm := getAccessModeSeqCst instruction.instruction am
        match modifiedAm with
        | .rel => g.addRelDeps node
        | .acq => g.addAcqDeps node
        | .relAcq => (g.addRelDeps node).addAcqDeps node
        | _ => g
      | _ => g
    | _ => g

/-- `DependencyGraph::build_dependencies`. -/
def DependencyGraph.buildDependencies (g : DependencyGraph) : DependencyGraph :=
  (List.range g.nodes.length).foldl (fun g2 i => g2.addDependencies i) g

/-- `DependencyGraph::remove_node`; `none` embeds the
"Cannot remove node with dependencies" panic.  After unlinking and deleting
the node, an optional propagate node is spawned with fence edges and (TSO:
per-thread / PSO: per-location) ordering edges toward the pending propagates
of the same thread. -/
def DependencyGraph.removeNode (g : DependencyGraph) (nid : NodeId)
    (propagate : Option (LabeledInstruction × Reference)) (pso : Bool) :
    Option DependencyGraph :=
  match g.findNode nid with
  | none => none
  | some node =>
    if node.dependsOn.isEmpty = false then none
    else
      let nodes1 := g.nodes.map (fun n =>
        if n.instruction.id ∈ node.dependsOnMe then
          { n with dependsOn := n.dependsOn.filter (fun d => decide (d ≠ nid)) }
        else n)
      let g1 : DependencyGraph := ⟨nodes1.filter (fun n => decide (n.instruction.id ≠ nid))⟩
      match propagate with
      | none => some g1
      | some (instr, toLoc) =>
        let g2 := g1.addPropagate instr toLoc
        let propNodeId : NodeId := .propId instr.threadId instr.lineIndex
        let dependantNodes := g2.dfsFilter (fun other =>
          match other with
          | .instruction otherInstr =>
            match otherInstr.instruction with
            | .fence _ => decide (otherInstr.threadId = instr.threadId)
            | _ => false
          | _ => false)
        let g3 := dependantNodes.foldl (fun gg d => gg.addDependency d propNodeId) g2
        let dependedNodes := g3.dfsFilter (fun other =>
          match other with
          | .propagate p =>
            if pso then
              decide (p.toLocation = toLoc) &&
                decide (p.associatedWrite.threadId = instr.threadId) &&
                decide (p.associatedWrite.lineIndex ≠ instr.lineIndex)
            else
              decide (p.associatedWrite.threadId = instr.threadId) &&
                decide (p.associatedWrite.lineIndex ≠ instr.lineIndex)
          | _ => false)
        let g4 := dependedNodes.foldl (fun gg d => gg.addDependency propNodeId d) g3
        some g4

/-! ## Execution engines (src/thread_subsystem.rs) -/

/-- The `TSO` engine state (also used for PSO via the `isPso` flag). -/
structure TSO where
  memorySubsystem : TSOMemorySubsystem
  programs : List (List LabeledInstruction)
  dependencyGraph : DependencyGraph
  registers : Registers
  isPso : Bool

/-- `TSO::new`: one graph node per instruction (pushed in thread order, then
program order), one eagerly created register bank per thread, then
`build_dependencies`. -/
def TSO.new (programs : List (List LabeledInstruction)) (isPso : Bool) : TSO :=
  let dependencyGraph : DependencyGraph :=
    ⟨programs.foldl
      (fun acc program =>
        acc ++ program.map (fun i => ⟨.instruction i, [], []⟩))
      []⟩
  { memorySubsystem := TSOMemorySubsystem.new
    programs := programs
    dependencyGraph := dependencyGraph.buildDependencies
    registers := ⟨fun t => if t < programs.length then some Memory.new else none⟩
    isPso := isPso }

/-- `TSO::get_instructions_to_exec`. -/
def TSO.getInstructionsToExec (s : TSO) : List InstructionNode :=
  s.dependencyGraph.getLeaves

/-- `TSO::exec_instruction` on the graph node with id `nid` (the driver only
passes nodes of the graph; a missing id, a register-bank `unwrap`, a partial
arithmetic result, the `propagate` `unwrap`, the non-leaf removal panic and
the catch-all `panic!("Instruction not supported")` — which covers
`ConditionalJump` and every operand-shape mismatch — are all `none`). -/
def TSO.execInstruction (s : TSO) (nid : NodeId) : Option TSO :=
  match s.dependencyGraph.findNode nid with
  | none => none
  | some node =>
    let instruction := node.instruction
    let threadId := instruction.threadId
    match instruction with
    | .propagate _ =>
      match s.memorySubsystem.propagate threadId with
      | none => none
      | some ms =>
        match s.dependencyGraph.removeNode nid none s.isPso with
        | none => none
        | some g => some { s with memorySubsystem := ms, dependencyGraph := g }
    | .instruction labeledInstruction =>
      match labeledInstruction.instruction with
      | .assignConst (Reference.register reg) value =>
        match s.registers.store reg value threadId with
        | none => none
        | some rs =>
          match s.dependencyGraph.removeNode nid none s.isPso with
          | none => none
          | some g => some { s with registers := rs, dependencyGraph := g }
      | .assignOperation (Reference.register reg) (Reference.register reg1) operation
          (Reference.register reg2) =>
        match s.registers.load reg1 threadId, s.registers.load reg2 threadId with
        | some value1, some value2 =>
          match operation.apply value1 value2 with
          | none => none
          | some result =>
            match s.registers.store reg result threadId with
            | none => none
            | some rs =>
              match s.dependencyGraph.removeNode nid none s.isPso with
              | none => none
              | some g => some { s with registers := rs, dependencyGraph := g }
        | _, _ => none
      | .load _ (Reference.memory mem) (Reference.register reg) =>
        let value := s.memorySubsystem.load mem threadId
        match s.registers.store reg value threadId with
        | none => none
        | some rs =>
          match s.dependencyGraph.removeNode nid none s.isPso with
          | none => none
          | some g => some { s with registers := rs, dependencyGraph := g }
      | .store _ (Reference.register reg) (Reference.memory mem) =>
        match s.registers.load reg threadId with
        | none => none
        | some value =>
          let ms := s.memorySubsystem.store mem value threadId
          -- the source re-matches the instruction to extract `mem_ref`; that
          -- inner `if let` always succeeds with the third operand
          let prop := (labeledInstruction, Reference.memory mem)
          match s.dependencyGraph.removeNode nid (some prop) s.isPso with
          | none => none
          | some g => some { s with memorySubsystem := ms, dependencyGraph := g }
      | .cas (Reference.register ref1) _ (Reference.memory addr) (Reference.register reg3)
          (Reference.register reg4) =>
        match s.registers.load reg3 threadId, s.registers.load reg4 threadId with
        | some expected, some desiredSet =>
          let curValue := s.memorySubsystem.load addr threadId
          if curValue = expected then
            let ms := s.memorySubsystem.store addr desiredSet threadId
            match s.registers.store ref1 curValue threadId with
            | none => none
            | some rs =>
              let prop := (labeledInstruction, Reference.memory addr)
              match s.dependencyGraph.removeNode nid (some prop) s.isPso with
              | none => none
              | some g =>
                some { s with memorySubsystem := ms, registers := rs, dependencyGraph := g }
          else
            match s.registers.store ref1 curValue threadId with
            | none => none
            | some rs =>
              match s.dependencyGraph.removeNode nid none s.isPso with
              | none => none
              | some g => some { s with registers := rs, dependencyGraph := g }
        | _, _ => none
      | .fai (Reference.register ref1) _ (Reference.memory addr) (Reference.register reg3) =>
        let priorToIncrement := s.memorySubsystem.load addr threadId
        match s.registers.load reg3 threadId with
        | none => none
        | some incrementBy =>
          let newValue := priorToIncrement + incrementBy
          let ms := s.memorySubsystem.store addr newValue threadId
          match s.registers.store ref1 priorToIncrement threadId with
          | none => none
          | some rs =>
            let prop := (labeledInstruction, Reference.memory addr)
            match s.dependencyGraph.removeNode nid (some prop) s.isPso with
            | none => none
            | some g =>
              some { s with memorySubsystem := ms, registers := rs, dependencyGraph := g }
      | .fence _ =>
        match s.dependencyGraph.removeNode nid none s.isPso with
        | none => none
        | some g => some { s with dependencyGraph := g }
      | _ => none

/-- The `SequentialConsistency` engine state. -/
structure SequentialConsistency where
  memorySubsystem : SCMemorySubsystem
  programs : List (List LabeledInstruction)
  instructionPointers : List Nat
  registers : Registers

/-- `SequentialConsistency::new`. -/
def SequentialConsistency.new (programs : List (List LabeledInstruction)) :
    SequentialConsistency :=
  { memorySubsystem := SCMemorySubsystem.new
    programs := programs
    instructionPointers := List.replicate programs.length 0
    registers := ⟨fun t => if t < programs.length then some Memory.new else none⟩ }

/-- `SequentialConsistency::get_instructions_to_exec`: the instruction at the
current program counter of every unfinished thread. -/
def SequentialConsistency.getInstructionsToExec (s : SequentialConsistency) :
    List LabeledInstruction :=
  (List.range s.programs.length).foldl
    (fun acc threadId =>
      match s.programs[threadId]? with
      | none => acc
      | some program =>
        match s.instructionPointers[threadId]? with
        | none => acc
        | some ip =>
          match program[ip]? with
          | none => acc
          | some ins => acc ++ [ins])
    []

/-- `SequentialConsistency::find_label_index`: the first index of the
thread's program whose label equals `label`; the panic on a missing label
(and on an out-of-range thread index) is `none`. -/
def SequentialConsistency.findLabelIndex (s : SequentialConsistency) (threadId : Nat)
    (label : String) : Option Nat :=
  match s.programs[threadId]? with
  | none => none
  | some program => program.findIdx? (fun ins => ins.label = some label)

/-- Rust `self.instruction_pointers[thread_id] = v` (panics when out of
range). -/
def setPointer (ptrs : List Nat) (threadId v : Nat) : Option (List Nat) :=
  if threadId < ptrs.length then some (ptrs.set threadId v) else none

/-- Rust `self.instruction_pointers[thread_id] += 1`. -/
def incPointer (ptrs : List Nat) (threadId : Nat) : Option (List Nat) :=
  match ptrs[threadId]? with
  | none => none
  | some v => some (ptrs.set threadId (v + 1))

/-- `SequentialConsistency::exec_instruction`. -/
def SequentialConsistency.execInstruction (s : SequentialConsistency)
    (instruction : LabeledInstruction) : Option SequentialConsistency :=
  let threadId := instruction.threadId
  match instruction.instruction with
  | .assignConst (Reference.register reg) value =>
    match s.registers.store reg value threadId with
    | none => none
    | some rs =>
      (incPointer s.instructionPointers threadId).map
        (fun ptrs => { s with registers := rs, instructionPointers := ptrs })
  | .assignOperation (Reference.register reg) (Reference.register reg1) operation
      (Reference.register reg2) =>
    match s.registers.load reg1 threadId, s.registers.load reg2 threadId with
    | some value1, some value2 =>
      match operation.apply value1 value2 with
      | none => none
      | some result =>
        match s.registers.store reg result threadId with
        | none => none
        | some rs =>
          (incPointer s.instructionPointers threadId).map
            (fun ptrs => { s with registers := rs, instructionPointers := ptrs })
    | _, _ => none
  | .load _ (Reference.memory mem) (Reference.register reg) =>
    let value := s.memorySubsystem.load mem threadId
    match s.registers.store reg value threadId with
    | none => none
    | some rs =>
      (incPointer s.instructionPointers threadId).map
        (fun ptrs => { s with registers := rs, instructionPointers := ptrs })
  | .store _ (Reference.register reg) (Reference.memory mem) =>
    match s.registers.load reg threadId with
    | none => none
    | some value =>
      let ms := s.memorySubsystem.store mem value threadId
      (incPointer s.instructionPointers threadId).map
        (fun ptrs => { s with memorySubsystem := ms, instructionPointers := ptrs })
  | .cas (Reference.register ref1) _ (Reference.memory addr) (Reference.register reg3)
      (Reference.register reg4) =>
    match s.registers.load reg3 threadId, s.registers.load reg4 threadId with
    | some expected, some desiredSet =>
      let curValue := s.memorySubsystem.load addr threadId
      if curValue = expected then
        let ms := s.memorySubsystem.store addr desiredSet threadId
        match s.registers.store ref1 curValue threadId with
        | none => none
        | some rs =>
          (incPointer s.instructionPointers threadId).map
            (fun ptrs =>
              { s with memorySubsystem := ms, registers := rs, instructionPointers := ptrs })
      else
        match s.registers.store ref1 curValue threadId with
        | none => none
        | some rs =>
          (incPointer s.instructionPointers threadId).map
            (fun ptrs => { s with registers := rs, instructionPointers := ptrs })
    | _, _ => none
  | .fai (Reference.register ref1) _ (Reference.memory addr) (Reference.register reg3) =>
    let priorToIncrement := s.memorySubsystem.load addr threadId
    match s.registers.load reg3 threadId with
    | none => none
    | some incrementBy =>
      let newValue := priorToIncrement + incrementBy
      let ms := s.memorySubsystem.store addr newValue threadId
      match s.registers.store ref1 priorToIncrement threadId with
      | none => none
      | some rs =>
        (incPointer s.instructionPointers threadId).map
          (fun ptrs =>
            { s with memorySubsystem := ms, registers := rs, instructionPointers := ptrs })
  | .fence _ =>
    (incPointer s.instructionPointers threadId).map
      (fun ptrs => { s with instructionPointers := ptrs })
  | .conditionalJump (Reference.register reg) label =>
    match s.registers.load reg threadId with
    | none => none
    | some value =>
      if value ≠ 0 then
        match s.findLabelIndex threadId label with
        | none => none
        | some labelIndex =>
          (setPointer s.instructionPointers threadId labelIndex).map
            (fun ptrs => { s with instructionPointers := ptrs })
      else
        (incPointer s.instructionPointers threadId).map
          (fun ptrs => { s with instructionPointers := ptrs })
  | _ => none

/-- Whether a node type is a Propagate node. -/
def NodeType.isPropagate : NodeType → Bool
  | .propagate _ => true
  | .instruction _ => false

/-- The number of Propagate nodes of thread `t` in the graph. -/
def DependencyGraph.propagateCount (g : DependencyGraph) (t : Nat) : Nat :=
  (g.nodes.filter (fun n => n.instruction.isPropagate && decide (n.instruction.threadId = t))).length

/-- Well-formed program lists as produced by `programs_to_instructions`:
instruction `k` of file `ti` carries `thread_id = ti` and `line_index = k`. -/
def WFPrograms (programs : List (List LabeledInstruction)) : Bool :=
  programs.enum.all (fun p =>
    p.2.enum.all (fun q =>
      decide (q.2.threadId = p.1) && decide (q.2.lineIndex = q.1)))

/-- Engine states reachable from program load: the initial `TSO::new` state,
closed under any `exec_instruction` step that does not panic (the REPL only
ever selects leaves, but non-leaves are also covered — executing them panics
at the `remove_node` check, so they produce no successor state). -/
inductive Reach (programs : List (List LabeledInstruction)) (pso : Bool) : TSO → Prop where
  | init : Reach programs pso (TSO.new programs pso)
  | step {s s' : TSO} {nid : NodeId} : Reach programs pso s →
      s.execInstruction nid = some s' → Reach programs pso s'

/-- Structural invariants of the dependency graph maintained by construction
and by leaf execution. -/
structure GraphInv (g : DependencyGraph) : Prop where
  idsNodup : (g.nodes.map (fun n => n.instruction.id)).Nodup
  closed : ∀ n ∈ g.nodes, ∀ i, (i ∈ n.dependsOn ∨ i ∈ n.dependsOnMe) →
    ∃ m ∈ g.nodes, m.instruction.id = i
  symEdge : ∀ a ∈ g.nodes, ∀ b ∈ g.nodes,
    (b.instruction.id ∈ a.dependsOn ↔ a.instruction.id ∈ b.dependsOnMe)
  edgesNodup : ∀ n ∈ g.nodes, n.dependsOn.Nodup ∧ n.dependsOnMe.Nodup
  noSelf : ∀ n ∈ g.nodes, n.instruction.id ∉ n.dependsOn
  instrShape : ∀ n ∈ g.nodes, ∀ li, n.instruction = .instruction li →
    ∀ i ∈ n.dependsOn, (∃ l2, l2 < li.lineIndex ∧ i = .instrId li.threadId l2) ∨
      (∃ t2 l2, i = .propId t2 l2)
  propShape : ∀ n ∈ g.nodes, ∀ p, n.instruction = .propagate p →
    ∀ i ∈ n.dependsOn, ∃ t2 l2, i = .propId t2 l2
  propOrder : g.nodes.Pairwise (fun a b => a.instruction.isPropagate = true →
    b.instruction.id ∉ a.dependsOn)
  propFresh : ∀ n ∈ g.nodes, ∀ t l, n.instruction.id = .propId t l →
    ∀ m ∈ g.nodes, m.instruction.id ≠ .instrId t l

/-- The number of pending writes in thread `t`'s buffer (0 when the thread
has no buffer yet). -/
def TSO.bufferLen (s : TSO) (t : Nat) : Nat :=
  match s.memorySubsystem.buffers t with
  | none => 0
  | some operations => operations.length

/-- Full engine-state invariant: graph invariants plus, per thread, as many
Propagate nodes in the graph as pending writes in the store buffer. -/
def StateInv (s : TSO) : Prop :=
  GraphInv s.dependencyGraph ∧ ∀ t, s.dependencyGraph.propagateCount t = s.bufferLen t

/-- The depends-on edge relation of the graph on node ids. -/
def GraphEdge (g : DependencyGraph) (i j : NodeId) : Prop :=
  ∃ n ∈ g.nodes, n.instruction.id = i ∧ j ∈ n.dependsOn

/-- A rank function certifying acyclicity: Propagate nodes are ranked by
their position in the node list, instruction nodes above all of them by
`line_index`. -/
def nodeRank (g : DependencyGraph) (i : NodeId) : Nat :=
  match List.findIdx? (fun m => decide (m.instruction.id = i)) g.nodes with
  | none => 0
  | some k =>
    match i with
    | .propId _ _ => k
    | .instrId _ l => g.nodes.length + l

/-! ## Concrete programs used as inputs for the claims -/

/-- One thread: `x = 1`, `fence REL_ACQ`, `y = 2` (as produced by
`parse_program`). -/
def fenceProgram : List LabeledInstruction :=
  [⟨none, .assignConst (.register "x") 1, 0, 0⟩,
   ⟨none, .fence .relAcq, 1, 0⟩,
   ⟨none, .assignConst (.register "y") 2, 2, 0⟩]

/-- One thread with the single instruction `store RLX x #a` (the unset
register `x` reads as 0). -/
def oneStoreProgram : List LabeledInstruction :=
  [⟨none, .store .rlx (.register "x") (.memory "a"), 0, 0⟩]

/-- One thread: `x = 1`, `y = 2`, `store RLX x #a`, `store RLX y #b`. -/
def twoStoreProgram : List LabeledInstruction :=
  [⟨none, .assignConst (.register "x") 1, 0, 0⟩,
   ⟨none, .assignConst (.register "y") 2, 1, 0⟩,
   ⟨none, .store .rlx (.register "x") (.memory "a"), 2, 0⟩,
   ⟨none, .store .rlx (.register "y") (.memory "b"), 3, 0⟩]

/-- The PSO state after executing the four instructions of
`twoStoreProgram` in program order: both writes are buffered and both
Propagate nodes are in the graph. -/
def psoAfterStores : Option TSO :=
  ((TSO.new [twoStoreProgram] true).execInstruction (.instrId 0 0)).bind fun s =>
  (s.execInstruction (.instrId 0 1)).bind fun s =>
  (s.execInstruction (.instrId 0 2)).bind fun s =>
  s.execInstruction (.instrId 0 3)

/-- ... then executing the Propagate node of the LATER write (line 3, to
`#b`), which is a PSO leaf because the two writes target distinct
addresses. -/
def psoAfterLatePropagate : Option TSO :=
  psoAfterStores.bind fun s => s.execInstruction (.propId 0 3)

/-- Lines of a valid program whose third instruction underflows:
`x = 0`, `y = 1`, `z = x - y`. -/
def subProgramLines : List String := ["x = 0", "y = 1", "z = x - y"]

/-- Lines of a valid program whose second instruction divides by the default
value 0 of the unset register `y`: `x = 1`, `z = x / y`. -/
def divProgramLines : List String := ["x = 1", "z = x / y"]

/-- The parsed `subProgramLines`. -/
def subProgram : List LabeledInstruction :=
  [⟨none, .assignConst (.register "x") 0, 0, 0⟩,
   ⟨none, .assignConst (.register "y") 1, 1, 0⟩,
   ⟨none, .assignOperation (.register "z") (.register "x") .sub (.register "y"), 2, 0⟩]

/-- The parsed `divProgramLines`. -/
def divProgram : List LabeledInstruction :=
  [⟨none, .assignConst (.register "x") 1, 0, 0⟩,
   ⟨none, .assignOperation (.register "z") (.register "x") .div (.register "y"), 1, 0⟩]

/-- SC run of `subProgram`: two successful steps, then the underflowing
`z = x - y`. -/
def scSubPrefix : Option SequentialConsistency :=
  ((SequentialConsistency.new [subProgram]).execInstruction
      ⟨none, .assignConst (.register "x") 0, 0, 0⟩).bind fun s =>
  s.execInstruction ⟨none, .assignConst (.register "y") 1, 1, 0⟩

def scSubRun : Option SequentialConsistency :=
  scSubPrefix.bind fun s =>
    s.execInstruction ⟨none, .assignOperation (.register "z") (.register "x") .sub
      (.register "y"), 2, 0⟩

/-- TSO run of `subProgram` executing the three (edge-free) nodes in program
order. -/
def tsoSubPrefix : Option TSO :=
  ((TSO.new [subProgram] false).execInstruction (.instrId 0 0)).bind fun s =>
  s.execInstruction (.instrId 0 1)

def tsoSubRun : Option TSO :=
  tsoSubPrefix.bind fun s => s.execInstruction (.instrId 0 2)

/-- SC run of `divProgram`. -/
def scDivPrefix : Option SequentialConsistency :=
  (SequentialConsistency.new [divProgram]).execInstruction
    ⟨none, .assignConst (.register "x") 1, 0, 0⟩

def scDivRun : Option SequentialConsistency :=
  scDivPrefix.bind fun s =>
    s.execInstruction ⟨none, .assignOperation (.register "z") (.register "x") .div
      (.register "y"), 1, 0⟩

/-- TSO run of `divProgram`. -/
def tsoDivPrefix : Option TSO :=
  (TSO.new [divProgram] false).execInstruction (.instrId 0 0)

def tsoDivRun : Option TSO :=
  tsoDivPrefix.bind fun s => s.execInstruction (.instrId 0 1)

/-! ## Theorems for the claims -/

/-- C1 (code bug).  Initial dependency-graph construction is claimed to give
a non-`SEQ_CST` `Fence` an effective mode equal to its shown mode, with a
`Fence(REL_ACQ)` receiving both release and acquire edge sets.  In the code,
`get_access_mode_seq_cst` sends `Fence` into its catch-all `_ => RLX` arm
(even though `add_dependencies` explicitly extracted the fence's mode), so a
`Fence(REL_ACQ)` receives effective mode `RLX` and NO edges: after loading
the single-thread program `x = 1; fence REL_ACQ; y = 2` under TSO, the fence
node has empty `depends_on` and empty `depends_on_me`, although the claim
requires line 0 below it and line 2 above it. -/
theorem c1_fence_effective_mode_is_rlx :
    getAccessModeSeqCst (.fence .relAcq) .relAcq = .rlx ∧
    getAccessModeSeqCst (.fence .rel) .rel = .rlx ∧
    getAccessModeSeqCst (.fence .acq) .acq = .rlx ∧
    ((TSO.new [fenceProgram] false).dependencyGraph.findNode (.instrId 0 1)).map
        (fun n => (n.instruction, n.dependsOn, n.dependsOnMe))
      = some (.instruction ⟨none, .fence .relAcq, 1, 0⟩, [], []) := by
  refine ⟨rfl, rfl, rfl, ?_⟩
  decide

/-- C2 (counterexample).  The claim: executing a Propagate node applies to
main memory exactly the write the node is tagged with; in particular, under
PSO with two same-thread buffered writes to distinct addresses, executing
the later write's Propagate drains that later write.  On the code this is
false: `TSOMemorySubsystem::propagate` always pops the FRONT of the thread's
FIFO buffer.  Concretely, after `x = 1; y = 2; store RLX x #a; store RLX y
#b` under PSO the buffer is `[(a,1), (b,2)]`; the Propagate node of line 3
is tagged with the store to `#b`, yet executing it writes `a := 1`, leaves
`b` at 0, and leaves `(b,2)` buffered. -/
theorem c2_pso_propagate_counterexample :
    (psoAfterStores.bind (fun s =>
        (s.dependencyGraph.findNode (.propId 0 3)).map
          (fun n => (n.instruction, n.dependsOn))))
      = some (.propagate ⟨⟨none, .store .rlx (.register "y") (.memory "b"), 3, 0⟩,
          .memory "b"⟩, []) ∧
    (psoAfterStores.map (fun s => s.memorySubsystem.buffers 0))
      = some (some [⟨"a", 1⟩, ⟨"b", 2⟩]) ∧
    (psoAfterLatePropagate.map (fun s =>
        (s.memorySubsystem.memory.load "a", s.memorySubsystem.memory.load "b",
         s.memorySubsystem.buffers 0)))
      = some (1, 0, some [⟨"b", 2⟩]) := by
  decide

/-- C2 (amended).  Executing a Propagate node for thread `t` drains the
HEAD (the oldest pending write) of thread `t`'s store buffer to main memory
and removes the node; the drained write is not in general the one the node
is tagged with. -/
theorem c2_propagate_drains_buffer_head
    (s : TSO) (nid : NodeId) (node : InstructionNode) (p : Propagate)
    (w : WriteOperation) (rest : List WriteOperation)
    (hfind : s.dependencyGraph.findNode nid = some node)
    (hnode : node.instruction = .propagate p)
    (hleaf : node.dependsOn = [])
    (hbuf : s.memorySubsystem.buffers p.associatedWrite.threadId = some (w :: rest)) :
    ∃ s', s.execInstruction nid = some s' ∧
      s'.memorySubsystem.memory = s.memorySubsystem.memory.store w.addr w.value ∧
      s'.memorySubsystem.buffers p.associatedWrite.threadId = some rest ∧
      (∀ t, t ≠ p.associatedWrite.threadId →
        s'.memorySubsystem.buffers t = s.memorySubsystem.buffers t) := by
  have hrm : s.dependencyGraph.removeNode nid none s.isPso
      = some ⟨(s.dependencyGraph.nodes.map (fun n =>
          if n.instruction.id ∈ node.dependsOnMe then
            { n with dependsOn := n.dependsOn.filter (fun d => decide (d ≠ nid)) }
          else n)).filter (fun n => decide (n.instruction.id ≠ nid))⟩ := by
    simp only [DependencyGraph.removeNode, hfind, hleaf, List.isEmpty_nil]
    rfl
  have hprop : s.memorySubsystem.propagate p.associatedWrite.threadId
      = some ⟨s.memorySubsystem.memory.store w.addr w.value,
          fun t => if t = p.associatedWrite.threadId then some rest
            else s.memorySubsystem.buffers t⟩ := by
    simp only [TSOMemorySubsystem.propagate, hbuf]
  refine ⟨{ s with
      memorySubsystem := ⟨s.memorySubsystem.memory.store w.addr w.value,
        fun t => if t = p.associatedWrite.threadId then some rest
          else s.memorySubsystem.buffers t⟩,
      dependencyGraph := ⟨(s.dependencyGraph.nodes.map (fun n =>
          if n.instruction.id ∈ node.dependsOnMe then
            { n with dependsOn := n.dependsOn.filter (fun d => decide (d ≠ nid)) }
          else n)).filter (fun n => decide (n.instruction.id ≠ nid))⟩ }, ?_, rfl, ?_, ?_⟩
  · simp only [TSO.execInstruction, hfind, hnode, NodeType.threadId, hprop, hrm]
  · simp
  · intro t ht
    simp [ht]

/-- Witness for `c2_propagate_drains_buffer_head` at a concrete one-node
state holding two buffered writes. -/
theorem c2_propagate_drains_buffer_head_witness :
    ∃ s', (TSO.mk
        ⟨Memory.new, fun t => if t = 0 then some [⟨"a", 1⟩, ⟨"b", 2⟩] else none⟩
        [] ⟨[⟨.propagate ⟨⟨none, .store .rlx (.register "y") (.memory "b"), 3, 0⟩,
            .memory "b"⟩, [], []⟩]⟩
        ⟨fun _ => none⟩ true).execInstruction (.propId 0 3) = some s' ∧
      s'.memorySubsystem.memory = Memory.new.store "a" 1 ∧
      s'.memorySubsystem.buffers 0 = some [⟨"b", 2⟩] ∧
      (∀ t, t ≠ 0 → s'.memorySubsystem.buffers t
        = (fun t => if t = 0 then some [⟨"a", 1⟩, ⟨"b", 2⟩] else none) t) := by
  exact c2_propagate_drains_buffer_head _ _ _
    ⟨⟨none, .store .rlx (.register "y") (.memory "b"), 3, 0⟩, .memory "b"⟩
    ⟨"a", 1⟩ [⟨"b", 2⟩] rfl rfl rfl rfl

/-- C7 (code bug).  The claim (and §4.1 of the spec): parsing returns
`InvalidCommand` for an unknown token.  `Command::from_str` does construct
`Err(InvalidCommand)` for such a token (e.g. `"1abc"`, which starts with a
digit but is not a non-negative integer), but `str_to_commands` inside
`Instruction::from_str` calls `.unwrap()` on every token parse, so the line
`x = 1abc` PANICS (embedded: `none`) instead of returning the error.  The
`InvalidInstruction` half of the claim does hold: a line of recognized
tokens matching no shape returns `Err(InvalidInstruction)`. -/
theorem c7_unknown_token_panics :
    Command.fromStr "1abc" = some (.error (.invalidCommand "1abc")) ∧
    Instruction.fromStr "x = 1abc" = none ∧
    Instruction.fromStr "load #x r" = some (.error (.invalidInstruction "load #x r")) := by
  refine ⟨?_, ?_, ?_⟩ <;> decide

/-- C9 (confirmed).  Arithmetic in `AssignOperation` is partial and the
error branch is reachable from valid programs in both engines:
`x = 0; y = 1; z = x - y` parses, its first two steps execute, and the third
panics (usize underflow) under SC and under TSO; `x = 1; z = x / y` parses
and its second step divides by the default 0 of the unset register `y` and
panics under SC and under TSO. -/
theorem c9_arith_partiality_reachable :
    ArithCommand.apply .sub 0 1 = none ∧
    ArithCommand.apply .div 1 0 = none ∧
    parseProgram subProgramLines 0 = some subProgram ∧
    scSubPrefix.isSome = true ∧ scSubRun.isNone = true ∧
    tsoSubPrefix.isSome = true ∧ tsoSubRun.isNone = true ∧
    parseProgram divProgramLines 0 = some divProgram ∧
    scDivPrefix.isSome = true ∧ scDivRun.isNone = true ∧
    tsoDivPrefix.isSome = true ∧ tsoDivRun.isNone = true := by
  refine ⟨rfl, rfl, ?_, ?_, ?_, ?_, ?_, ?_, ?_, ?_, ?_, ?_⟩ <;> decide

/-! ### General list helpers -/

theorem find?_append_eq {α : Type} (p : α → Bool) (l1 l2 : List α) :
    (l1 ++ l2).find? p = ((l1.find? p).orElse (fun _ => l2.find? p)) := by
  induction l1 with
  | nil => simp
  | cons x xs ih => by_cases h : p x <;> simp [List.find?_cons, h, ih]

theorem findIdx?_eq_of_first {α : Type} (p : α → Bool) :
    ∀ (l : List α) (k i : Nat) (a : α), l[i]? = some a → p a = true →
      (∀ j b, j < i → l[j]? = some b → p b = false) →
      List.findIdx? p l k = some (k + i) := by
  intro l
  induction l with
  | nil => intro k i a ha; simp at ha
  | cons x xs ih =>
    intro k i a ha hp hfirst
    cases i with
    | zero =>
      simp only [List.getElem?_cons_zero, Option.some.injEq] at ha
      subst ha
      rw [List.findIdx?_cons, if_pos hp, Nat.add_zero]
    | succ n =>
      have h0 : p x = false := hfirst 0 x (Nat.succ_pos n) (by simp)
      rw [List.findIdx?_cons, if_neg (by simp [h0])]
      have hx := ih (k + 1) n a (by simpa using ha) hp
        (fun j b hj hb => hfirst (j + 1) b (Nat.succ_lt_succ hj) (by simpa using hb))
      rw [hx]
      congr 1
      omega

theorem findIdx?_eq_none_of_all {α : Type} (p : α → Bool) :
    ∀ (l : List α) (k : Nat), (∀ a ∈ l, p a = false) → List.findIdx? p l k = none := by
  intro l
  induction l with
  | nil => intro k _; rfl
  | cons x xs ih =>
    intro k h
    rw [List.findIdx?_cons, if_neg (by simp [h x (List.mem_cons_self x xs)])]
    exact ih (k + 1) (fun a ha => h a (List.mem_cons_of_mem x ha))

/-! ### C4: buffered loads -/

/-- C4 (confirmed).  `load(a, t)` returns the value of the most recent
(latest-pushed) buffered write to `a` in thread `t`'s own buffer if one
exists (1); otherwise it returns main memory's value for `a`, which defaults
to 0 for an absent key (2); and it depends only on thread `t`'s own buffer
and main memory, so it never reads another thread's buffer (3). -/
theorem c4_load_store_forwarding (m : TSOMemorySubsystem) (a : String) (t : Nat) :
    (∀ (pre post : List WriteOperation) (w : WriteOperation),
      m.buffers t = some (pre ++ w :: post) → w.addr = a →
      (∀ w' ∈ post, w'.addr ≠ a) → m.load a t = w.value) ∧
    ((∀ w ∈ (m.buffers t).getD [], w.addr ≠ a) →
      m.load a t = m.memory.load a ∧ (m.memory.data a = none → m.load a t = 0)) ∧
    (∀ m' : TSOMemorySubsystem, m'.memory = m.memory → m'.buffers t = m.buffers t →
      m'.load a t = m.load a t) := by
  refine ⟨?_, ?_, ?_⟩
  · intro pre post w hbuf hwaddr hpost
    have hrev : (pre ++ w :: post).reverse = post.reverse ++ w :: pre.reverse := by
      simp
    have hnone : post.reverse.find? (fun op => op.addr = a) = none := by
      rw [List.find?_eq_none]
      intro x hx
      simp [hpost x (List.mem_reverse.mp hx)]
    simp [TSOMemorySubsystem.load, hbuf, Buffer.load, hrev, find?_append_eq, hnone,
      List.find?_cons, hwaddr]
  · intro hnowrite
    constructor
    · cases hb : m.buffers t with
      | none => simp [TSOMemorySubsystem.load, hb]
      | some buf =>
        have hnone : buf.reverse.find? (fun op => op.addr = a) = none := by
          rw [List.find?_eq_none]
          intro x hx
          have : x ∈ (m.buffers t).getD [] := by
            rw [hb]
            exact List.mem_reverse.mp hx
          simp [hnowrite x this]
        simp [TSOMemorySubsystem.load, hb, Buffer.load, hnone]
    · intro hdata
      cases hb : m.buffers t with
      | none => simp [TSOMemorySubsystem.load, hb, Memory.load, hdata]
      | some buf =>
        have hnone : buf.reverse.find? (fun op => op.addr = a) = none := by
          rw [List.find?_eq_none]
          intro x hx
          have : x ∈ (m.buffers t).getD [] := by
            rw [hb]
            exact List.mem_reverse.mp hx
          simp [hnowrite x this]
        simp [TSOMemorySubsystem.load, hb, Buffer.load, hnone, Memory.load, hdata]
  · intro m' hm hb
    simp [TSOMemorySubsystem.load, hm, hb]

/-- Witness for `c4_load_store_forwarding`: with thread 0's buffer
`[(a,5), (a,7), (b,9)]`, a load of `a` forwards the latest buffered value 7,
and a load of the unbuffered, unwritten `c` yields 0. -/
theorem c4_load_store_forwarding_witness :
    (TSOMemorySubsystem.mk ⟨fun _ => none⟩
        (fun t => if t = 0 then some [⟨"a", 5⟩, ⟨"a", 7⟩, ⟨"b", 9⟩] else none)).load "a" 0 = 7 ∧
    (TSOMemorySubsystem.mk ⟨fun _ => none⟩
        (fun t => if t = 0 then some [⟨"a", 5⟩, ⟨"a", 7⟩, ⟨"b", 9⟩] else none)).load "c" 0 = 0 := by
  constructor
  · exact (c4_load_store_forwarding _ "a" 0).1 [⟨"a", 5⟩] [⟨"b", 9⟩] ⟨"a", 7⟩ rfl rfl
      (by decide)
  · exact (((c4_load_store_forwarding _ "c" 0).2.1 (by decide)).2 rfl)

/-- Removing all nodes with id `nid` (after any edge cleanup that keeps each
node's `instruction` field) does not change the number of nodes whose
instruction satisfies `P`, provided no `P`-node carries id `nid`. -/
theorem filter_length_remove_of_not (P : NodeType → Bool) (nid : NodeId)
    (f : InstructionNode → InstructionNode) (hf : ∀ n, (f n).instruction = n.instruction) :
    ∀ l : List InstructionNode,
      (∀ n ∈ l, P n.instruction = true → n.instruction.id ≠ nid) →
      (((l.map f).filter (fun n => decide (n.instruction.id ≠ nid))).filter
          (fun n => P n.instruction)).length
        = (l.filter (fun n => P n.instruction)).length := by
  intro l
  induction l with
  | nil => intro _; rfl
  | cons n l ih =>
    intro hprops
    have hrest := fun m hm hp => hprops m (List.mem_cons_of_mem n hm) hp
    simp only [List.map_cons, List.filter_cons]
    by_cases hcase : n.instruction.id = nid
    · have hnp : P n.instruction = false := by
        cases hb : P n.instruction with
        | false => rfl
        | true => exact absurd hcase (hprops n (List.mem_cons_self n l) hb)
      rw [if_neg (by simp [hf n, hcase]), if_neg (by simp [hnp])]
      exact ih hrest
    · rw [if_pos (by simp [hf n, hcase])]
      rw [List.filter_cons]
      by_cases hp : P n.instruction = true
      · rw [if_pos (by rw [hf n]; exact hp), if_pos hp]
        simp only [List.length_cons, ih hrest]
      · have hnp : P n.instruction = false := by
          cases hb : P n.instruction with
          | false => rfl
          | true => exact absurd hb hp
        rw [if_neg (by rw [hf n]; simp [hnp]), if_neg (by simp [hnp])]
        exact ih hrest

/-- Removing the unique node with id `nid` decreases the count of `P`-nodes
by one when that node satisfies `P`. -/
theorem filter_length_remove_of_mem (P : NodeType → Bool) (nid : NodeId)
    (f : InstructionNode → InstructionNode) (hf : ∀ n, (f n).instruction = n.instruction) :
    ∀ l : List InstructionNode,
      (l.map (fun n => n.instruction.id)).Nodup →
      ∀ x ∈ l, x.instruction.id = nid → P x.instruction = true →
      (((l.map f).filter (fun n => decide (n.instruction.id ≠ nid))).filter
          (fun n => P n.instruction)).length + 1
        = (l.filter (fun n => P n.instruction)).length := by
  intro l
  induction l with
  | nil => intro _ x hx; cases hx
  | cons n l ih =>
    intro hnd x hx hxid hxP
    have hndl : (l.map (fun n => n.instruction.id)).Nodup := (List.nodup_cons.mp hnd).2
    have hhead : n.instruction.id ∉ l.map (fun n => n.instruction.id) :=
      (List.nodup_cons.mp hnd).1
    rcases List.mem_cons.mp hx with rfl | hxl
    · -- the head is the removed node
      have hnone : ∀ m ∈ l, m.instruction.id ≠ nid := by
        intro m hm hc
        exact hhead (by rw [hxid, ← hc]; exact List.mem_map_of_mem _ hm)
      simp only [List.map_cons, List.filter_cons]
      rw [if_neg (by simp [hf x, hxid]), if_pos hxP]
      rw [filter_length_remove_of_not P nid f hf l (fun m hm _ => hnone m hm)]
      rfl
    · -- the head survives
      have hne : n.instruction.id ≠ nid := by
        intro hc
        exact hhead (by rw [hc, ← hxid]; exact List.mem_map_of_mem _ hxl)
      simp only [List.map_cons, List.filter_cons]
      rw [if_pos (by simp [hf n, hne])]
      rw [List.filter_cons]
      by_cases hp : P n.instruction = true
      · rw [if_pos (by rw [hf n]; exact hp), if_pos hp]
        have hi := ih hndl x hxl hxid hxP
        simp only [List.length_cons]
        omega
      · have hnp : P n.instruction = false := by
          cases hb : P n.instruction with
          | false => rfl
          | true => exact absurd hb hp
        rw [if_neg (by rw [hf n]; simp [hnp]), if_neg (by simp [hnp])]
        exact ih hndl x hxl hxid hxP

/-! ### C3: failing compare-and-swap -/

/-- C3 (confirmed).  Executing a `Cas` node whose expected register value
differs from the current value of the memory location (read through the
buffer) leaves the whole TSO/PSO memory subsystem — main memory and every
store buffer — unchanged, writes the observed current value to the
destination register, creates no Propagate node, and simply removes the Cas
node from the graph (no node beyond those already present survives). -/
theorem c3_cas_mismatch (s : TSO) (nid : NodeId) (node : InstructionNode)
    (li : LabeledInstruction) (ref1 addr reg3 reg4 : String) (mode : MemoryAccessMode)
    (bank : Memory)
    (hfind : s.dependencyGraph.findNode nid = some node)
    (hnode : node.instruction = .instruction li)
    (hins : li.instruction = .cas (.register ref1) mode (.memory addr) (.register reg3)
      (.register reg4))
    (hleaf : node.dependsOn = [])
    (hbank : s.registers.registers li.threadId = some bank)
    (hmismatch : s.memorySubsystem.load addr li.threadId ≠ bank.load reg3) :
    ∃ s', s.execInstruction nid = some s' ∧
      s'.memorySubsystem = s.memorySubsystem ∧
      s'.registers.registers li.threadId
        = some (bank.store ref1 (s.memorySubsystem.load addr li.threadId)) ∧
      (∀ t, t ≠ li.threadId → s'.registers.registers t = s.registers.registers t) ∧
      (s'.dependencyGraph.nodes.filter (fun n => n.instruction.isPropagate)).length
        = (s.dependencyGraph.nodes.filter (fun n => n.instruction.isPropagate)).length ∧
      s'.dependencyGraph.findNode nid = none ∧
      (∀ n' ∈ s'.dependencyGraph.nodes, ∃ n ∈ s.dependencyGraph.nodes,
        n'.instruction = n.instruction) := by
  have hrm : s.dependencyGraph.removeNode nid none s.isPso
      = some ⟨(s.dependencyGraph.nodes.map (fun n =>
          if n.instruction.id ∈ node.dependsOnMe then
            { n with dependsOn := n.dependsOn.filter (fun d => decide (d ≠ nid)) }
          else n)).filter (fun n => decide (n.instruction.id ≠ nid))⟩ := by
    simp only [DependencyGraph.removeNode, hfind, hleaf, List.isEmpty_nil]
    rfl
  have hload3 : s.registers.load reg3 li.threadId = some (bank.load reg3) := by
    simp [Registers.load, hbank]
  have hload4 : s.registers.load reg4 li.threadId = some (bank.load reg4) := by
    simp [Registers.load, hbank]
  have hstore : s.registers.store ref1 (s.memorySubsystem.load addr li.threadId) li.threadId
      = some ⟨fun t => if t = li.threadId then
          some (bank.store ref1 (s.memorySubsystem.load addr li.threadId))
        else s.registers.registers t⟩ := by
    simp [Registers.store, hbank]
  have hid : nid = NodeId.instrId li.threadId li.lineIndex := by
    have := List.find?_some hfind
    have h2 : node.instruction.id = nid := by simpa using this
    rw [← h2, hnode]
    rfl
  refine ⟨{ s with
      registers := ⟨fun t => if t = li.threadId then
          some (bank.store ref1 (s.memorySubsystem.load addr li.threadId))
        else s.registers.registers t⟩,
      dependencyGraph := ⟨(s.dependencyGraph.nodes.map (fun n =>
          if n.instruction.id ∈ node.dependsOnMe then
            { n with dependsOn := n.dependsOn.filter (fun d => decide (d ≠ nid)) }
          else n)).filter (fun n => decide (n.instruction.id ≠ nid))⟩ },
    ?_, rfl, ?_, ?_, ?_, ?_, ?_⟩
  · simp only [TSO.execInstruction, hfind, hnode, hins, NodeType.threadId, hload3, hload4,
      if_neg hmismatch, hstore, hrm]
  · simp
  · intro t ht
    simp [ht]
  · refine filter_length_remove_of_not (fun nt => nt.isPropagate) nid _
      (fun n => by dsimp; split <;> rfl) s.dependencyGraph.nodes ?_
    intro n _ hprop hcontra
    rw [hid] at hcontra
    cases hpn : n.instruction with
    | instruction li2 => rw [hpn] at hprop; simp [NodeType.isPropagate] at hprop
    | propagate p2 => rw [hpn] at hcontra; simp [NodeType.id] at hcontra
  · simp only [DependencyGraph.findNode]
    rw [List.find?_eq_none]
    intro x hx
    have := (List.mem_filter.mp hx).2
    simpa using this
  · intro n' hn'
    have hmem := (List.mem_filter.mp hn').1
    obtain ⟨n, hn, hfn⟩ := List.mem_map.mp hmem
    refine ⟨n, hn, ?_⟩
    rw [← hfn]
    split <;> rfl

/-- Witness for `c3_cas_mismatch`: a single-node graph holding
`d := cas RLX #m e v` with register `e = 4` while memory holds `m = 0`. -/
theorem c3_cas_mismatch_witness :
    ∃ s', (TSO.mk ⟨⟨fun _ => none⟩, fun _ => none⟩ []
        ⟨[⟨.instruction ⟨none, .cas (.register "d") .rlx (.memory "m") (.register "e")
            (.register "v"), 0, 0⟩, [], []⟩]⟩
        ⟨fun t => if t = 0 then some ⟨fun x => if x = "e" then some 4 else none⟩ else none⟩
        false).execInstruction (.instrId 0 0) = some s' ∧
      s'.memorySubsystem = (TSO.mk ⟨⟨fun _ => none⟩, fun _ => none⟩ []
        ⟨[⟨.instruction ⟨none, .cas (.register "d") .rlx (.memory "m") (.register "e")
            (.register "v"), 0, 0⟩, [], []⟩]⟩
        ⟨fun t => if t = 0 then some ⟨fun x => if x = "e" then some 4 else none⟩ else none⟩
        false).memorySubsystem ∧
      s'.registers.registers 0
        = some ((⟨fun x => if x = "e" then some 4 else none⟩ : Memory).store "d" 0) ∧
      (∀ t, t ≠ 0 → s'.registers.registers t = (TSO.mk ⟨⟨fun _ => none⟩, fun _ => none⟩ []
        ⟨[⟨.instruction ⟨none, .cas (.register "d") .rlx (.memory "m") (.register "e")
            (.register "v"), 0, 0⟩, [], []⟩]⟩
        ⟨fun t => if t = 0 then some ⟨fun x => if x = "e" then some 4 else none⟩ else none⟩
        false).registers.registers t) ∧
      (s'.dependencyGraph.nodes.filter (fun n => n.instruction.isPropagate)).length
        = ((TSO.mk ⟨⟨fun _ => none⟩, fun _ => none⟩ []
        ⟨[⟨.instruction ⟨none, .cas (.register "d") .rlx (.memory "m") (.register "e")
            (.register "v"), 0, 0⟩, [], []⟩]⟩
        ⟨fun t => if t = 0 then some ⟨fun x => if x = "e" then some 4 else none⟩ else none⟩
        false).dependencyGraph.nodes.filter (fun n => n.instruction.isPropagate)).length ∧
      s'.dependencyGraph.findNode (.instrId 0 0) = none ∧
      (∀ n' ∈ s'.dependencyGraph.nodes, ∃ n ∈ (TSO.mk ⟨⟨fun _ => none⟩, fun _ => none⟩ []
        ⟨[⟨.instruction ⟨none, .cas (.register "d") .rlx (.memory "m") (.register "e")
            (.register "v"), 0, 0⟩, [], []⟩]⟩
        ⟨fun t => if t = 0 then some ⟨fun x => if x = "e" then some 4 else none⟩ else none⟩
        false).dependencyGraph.nodes, n'.instruction = n.instruction) := by
  exact c3_cas_mismatch _ (.instrId 0 0) _
    ⟨none, .cas (.register "d") .rlx (.memory "m") (.register "e") (.register "v"), 0, 0⟩
    "d" "m" "e" "v" .rlx _ rfl rfl rfl rfl rfl (by decide)

/-! ### C8: conditional jumps in the SC engine -/

/-- C8 (confirmed).  In the SC engine, executing
`ConditionalJump(reg, label)` for thread `t`: (1) when the register value is
non-zero and instruction `i` is the first of thread `t`'s program carrying
the label, the program counter of `t` is set to `i`; (2) when the register
value is 0 the counter advances by 1; (3) when the register value is
non-zero and no instruction of the thread carries the label, execution is
fatal. -/
theorem c8_sc_conditional_jump (s : SequentialConsistency)
    (reg lbl : String) (lineIndex threadId : Nat) (lab : Option String) (bank : Memory)
    (hbank : s.registers.registers threadId = some bank)
    (hptr : threadId < s.instructionPointers.length) :
    (∀ program i ins, s.programs[threadId]? = some program →
      bank.load reg ≠ 0 →
      program[i]? = some ins → ins.label = some lbl →
      (∀ j ins', j < i → program[j]? = some ins' → ins'.label ≠ some lbl) →
      s.execInstruction ⟨lab, .conditionalJump (.register reg) lbl, lineIndex, threadId⟩
        = some { s with instructionPointers := s.instructionPointers.set threadId i }) ∧
    (bank.load reg = 0 →
      s.execInstruction ⟨lab, .conditionalJump (.register reg) lbl, lineIndex, threadId⟩
        = some { s with instructionPointers :=
            s.instructionPointers.set threadId (s.instructionPointers[threadId] + 1) }) ∧
    (∀ program, s.programs[threadId]? = some program →
      bank.load reg ≠ 0 →
      (∀ ins ∈ program, ins.label ≠ some lbl) →
      s.execInstruction ⟨lab, .conditionalJump (.register reg) lbl, lineIndex, threadId⟩
        = none) := by
  have hload : s.registers.load reg threadId = some (bank.load reg) := by
    simp [Registers.load, hbank]
  refine ⟨?_, ?_, ?_⟩
  · intro program i ins hprog hnz hins hlabel hfirst
    have hfli : s.findLabelIndex threadId lbl = some i := by
      have hx := findIdx?_eq_of_first (fun ins => decide (ins.label = some lbl)) program 0 i
        ins hins (by simp [hlabel]) (fun j b hj hb => by simpa using hfirst j b hj hb)
      simp only [SequentialConsistency.findLabelIndex, hprog]
      simpa using hx
    simp only [SequentialConsistency.execInstruction, hload, if_pos hnz, hfli, setPointer,
      if_pos hptr, Option.map_some']
  · intro hz
    have hv : s.instructionPointers[threadId]? = some (s.instructionPointers[threadId]) :=
      List.getElem?_eq_getElem hptr
    simp only [SequentialConsistency.execInstruction, hload, hz, ne_eq,
      not_true_eq_false, if_neg, incPointer, hv, Option.map_some', ite_false]
  · intro program hprog hnz hall
    have hfli : s.findLabelIndex threadId lbl = none := by
      simp only [SequentialConsistency.findLabelIndex, hprog]
      exact findIdx?_eq_none_of_all _ program 0 (fun a ha => by simp [hall a ha])
    simp only [SequentialConsistency.execInstruction, hload, if_pos hnz, hfli]

/-- Witness for `c8_sc_conditional_jump`: thread 0 at PC 1 with `r = 1`
takes `if r goto L` to index 3, the first (and only) line labelled `L`. -/
theorem c8_sc_conditional_jump_witness :
    (SequentialConsistency.mk SCMemorySubsystem.new
        [[⟨none, .assignConst (.register "r") 1, 0, 0⟩,
          ⟨none, .conditionalJump (.register "r") "L", 1, 0⟩,
          ⟨none, .assignConst (.register "q") 7, 2, 0⟩,
          ⟨some "L", .assignConst (.register "q") 9, 3, 0⟩]]
        [1]
        ⟨fun t => if t = 0 then some ⟨fun x => if x = "r" then some 1 else none⟩ else none⟩
      ).execInstruction ⟨none, .conditionalJump (.register "r") "L", 1, 0⟩
      = some (SequentialConsistency.mk SCMemorySubsystem.new
        [[⟨none, .assignConst (.register "r") 1, 0, 0⟩,
          ⟨none, .conditionalJump (.register "r") "L", 1, 0⟩,
          ⟨none, .assignConst (.register "q") 7, 2, 0⟩,
          ⟨some "L", .assignConst (.register "q") 9, 3, 0⟩]]
        ([1].set 0 3)
        ⟨fun t => if t = 0 then some ⟨fun x => if x = "r" then some 1 else none⟩ else none⟩) := by
  exact (c8_sc_conditional_jump _ "r" "L" 1 0 none
      ⟨fun x => if x = "r" then some 1 else none⟩ rfl (by decide)).1
    _ 3 ⟨some "L", .assignConst (.register "q") 9, 3, 0⟩ rfl (by decide) rfl rfl
    (by
      intro j ins' hj hins'
      have hj3 : j = 0 ∨ j = 1 ∨ j = 2 := by omega
      rcases hj3 with h | h | h <;> subst h <;> cases hins' <;> decide)

/-! ### Graph utility lemmas -/

theorem findNode_eq_some {g : DependencyGraph} {i : NodeId} {n : InstructionNode}
    (h : g.findNode i = some n) : n ∈ g.nodes ∧ n.instruction.id = i := by
  refine ⟨List.mem_of_find?_eq_some h, ?_⟩
  have := List.find?_some h
  simpa using this

theorem mem_unique_of_idsNodup {g : DependencyGraph}
    (hnd : (g.nodes.map (fun n => n.instruction.id)).Nodup)
    {x y : InstructionNode} (hx : x ∈ g.nodes) (hy : y ∈ g.nodes)
    (hid : x.instruction.id = y.instruction.id) : x = y :=
  List.inj_on_of_nodup_map hnd hx hy hid

/-- Soundness of the fuelled DFS: every id it collects names a node of the
graph satisfying the predicate (for every fuel value and start state whose
accumulated results already satisfy this). -/
theorem dfsFilterAux_sound (g : DependencyGraph) (p : NodeType → Bool) :
    ∀ (fuel : Nat) (nid : NodeId) (st : List NodeId × List NodeId),
      (∀ i ∈ st.2, ∃ n ∈ g.nodes, n.instruction.id = i ∧ p n.instruction = true) →
      ∀ i ∈ (g.dfsFilterAux p fuel nid st).2,
        ∃ n ∈ g.nodes, n.instruction.id = i ∧ p n.instruction = true := by
  intro fuel
  induction fuel with
  | zero => intro nid st h; exact h
  | succ fuel ih =>
    have fold : ∀ (ds : List NodeId) (st : List NodeId × List NodeId),
        (∀ i ∈ st.2, ∃ n ∈ g.nodes, n.instruction.id = i ∧ p n.instruction = true) →
        ∀ i ∈ (ds.foldl (fun st d => g.dfsFilterAux p fuel d st) st).2,
          ∃ n ∈ g.nodes, n.instruction.id = i ∧ p n.instruction = true := by
      intro ds
      induction ds with
      | nil => intro st h; exact h
      | cons d ds ihd =>
        intro st h i hi
        exact ihd _ (fun j hj => ih d st h j hj) i hi
    intro nid st h
    obtain ⟨visited, result⟩ := st
    simp only [DependencyGraph.dfsFilterAux]
    by_cases hv : nid ∈ visited
    · simp only [if_pos hv]
      exact h
    · simp only [if_neg hv]
      cases hfind : g.findNode nid with
      | none => exact h
      | some node =>
        apply fold
        intro i hi
        by_cases hp : p node.instruction
        · rw [if_pos hp] at hi
          rcases List.mem_append.mp hi with h1 | h2
          · exact h i h1
          · have hieq : i = nid := by simpa using h2
            subst hieq
            obtain ⟨hmem, hid⟩ := findNode_eq_some hfind
            exact ⟨node, hmem, hid, hp⟩
        · rw [if_neg hp] at hi
          exact h i hi

/-- Soundness of `dfs_filter`: it only returns ids of graph nodes satisfying
the predicate. -/
theorem dfsFilter_sound (g : DependencyGraph) (p : NodeType → Bool) :
    ∀ i ∈ g.dfsFilter p, ∃ n ∈ g.nodes, n.instruction.id = i ∧ p n.instruction = true := by
  have fold : ∀ (ns : List InstructionNode) (st : List NodeId × List NodeId),
      (∀ i ∈ st.2, ∃ n ∈ g.nodes, n.instruction.id = i ∧ p n.instruction = true) →
      ∀ i ∈ (ns.foldl
          (fun st n => g.dfsFilterAux p (g.nodes.length + 1) n.instruction.id st) st).2,
        ∃ n ∈ g.nodes, n.instruction.id = i ∧ p n.instruction = true := by
    intro ns
    induction ns with
    | nil => intro st h; exact h
    | cons m ns ihn =>
      intro st h i hi
      exact ihn _ (fun j hj => dfsFilterAux_sound g p _ _ st h j hj) i hi
  intro i hi
  exact fold g.nodes ([], []) (by intro j hj; cases hj) i hi

/-- `add_dependency` never changes any node's `instruction` (only the edge
lists). -/
theorem addDependency_instr_map (g : DependencyGraph) (a b : NodeId) :
    (g.addDependency a b).nodes.map (fun n => n.instruction)
      = g.nodes.map (fun n => n.instruction) := by
  cases hfind : g.findNode a with
  | none => simp only [DependencyGraph.addDependency, hfind]
  | some fnode =>
    by_cases hb : b ∈ fnode.dependsOn
    · simp only [DependencyGraph.addDependency, hfind, if_pos hb]
    · simp only [DependencyGraph.addDependency, hfind, if_neg hb, List.map_map]
      apply List.map_congr_left
      intro n _
      dsimp only [Function.comp, addEdgeUpdate]
      split <;> split <;> rfl

theorem addDependency_ids (g : DependencyGraph) (a b : NodeId) :
    (g.addDependency a b).nodes.map (fun n => n.instruction.id)
      = g.nodes.map (fun n => n.instruction.id) := by
  have h := addDependency_instr_map g a b
  have hsplit : ∀ (l : List InstructionNode),
      l.map (fun n => n.instruction.id) = (l.map (fun n => n.instruction)).map NodeType.id := by
    intro l
    rw [List.map_map]
    rfl
  rw [hsplit, hsplit, h]

theorem addDependency_exists_id (g : DependencyGraph) (a b i : NodeId) :
    (∃ n ∈ (g.addDependency a b).nodes, n.instruction.id = i) ↔
      (∃ n ∈ g.nodes, n.instruction.id = i) := by
  constructor
  · rintro ⟨n, hn, hid⟩
    have : i ∈ (g.addDependency a b).nodes.map (fun n => n.instruction.id) :=
      List.mem_map.mpr ⟨n, hn, hid⟩
    rw [addDependency_ids] at this
    obtain ⟨m, hm, hmid⟩ := List.mem_map.mp this
    exact ⟨m, hm, hmid⟩
  · rintro ⟨n, hn, hid⟩
    have : i ∈ g.nodes.map (fun n => n.instruction.id) := List.mem_map.mpr ⟨n, hn, hid⟩
    rw [← addDependency_ids g a b] at this
    obtain ⟨m, hm, hmid⟩ := List.mem_map.mp this
    exact ⟨m, hm, hmid⟩

/-- The no-op case of `add_dependency`, stated on the graph: adding an edge
that already exists changes nothing. -/
theorem addDependency_noop (g : DependencyGraph) (a b : NodeId)
    (fnode : InstructionNode) (hfind : g.findNode a = some fnode)
    (hb : b ∈ fnode.dependsOn) : g.addDependency a b = g := by
  simp only [DependencyGraph.addDependency, hfind, if_pos hb]

/-! ### `add_dependency` preserves the graph invariants -/

theorem addEdgeUpdate_instr (fr toId : NodeId) (n : InstructionNode) :
    (addEdgeUpdate fr toId n).instruction = n.instruction := by
  simp only [addEdgeUpdate]
  split <;> split <;> rfl

theorem addEdgeUpdate_id (fr toId : NodeId) (n : InstructionNode) :
    (addEdgeUpdate fr toId n).instruction.id = n.instruction.id := by
  rw [addEdgeUpdate_instr]

theorem addEdgeUpdate_dep (fr toId : NodeId) (hab : fr ≠ toId) (n : InstructionNode) :
    (addEdgeUpdate fr toId n).dependsOn
      = if n.instruction.id = fr then n.dependsOn ++ [toId] else n.dependsOn := by
  by_cases h1 : n.instruction.id = fr
  · simp [addEdgeUpdate, h1, hab]
  · by_cases h2 : n.instruction.id = toId <;>
      simp [addEdgeUpdate, h1, h2, Ne.symm hab]

theorem addEdgeUpdate_me (fr toId : NodeId) (hab : fr ≠ toId) (n : InstructionNode) :
    (addEdgeUpdate fr toId n).dependsOnMe
      = if n.instruction.id = toId then n.dependsOnMe ++ [fr] else n.dependsOnMe := by
  by_cases h1 : n.instruction.id = fr
  · simp [addEdgeUpdate, h1, hab]
  · by_cases h2 : n.instruction.id = toId <;>
      simp [addEdgeUpdate, h1, h2, Ne.symm hab]

/-- Adding one edge `a → b` preserves the graph invariants, provided `b`
names a node of the graph and the edge respects the shape discipline: from
an instruction node it goes to an earlier same-thread instruction or to any
Propagate node, from a Propagate node (necessarily the last node of the
list) only to another Propagate node. -/
theorem addDependency_GInv (g : DependencyGraph) (a b : NodeId)
    (hab : a ≠ b)
    (hbmem : ∃ m ∈ g.nodes, m.instruction.id = b)
    (hshape : ∀ n ∈ g.nodes, n.instruction.id = a →
      (∀ li, n.instruction = .instruction li →
        (∃ l2, l2 < li.lineIndex ∧ b = .instrId li.threadId l2) ∨
          (∃ t2 l2, b = .propId t2 l2)) ∧
      (∀ p, n.instruction = .propagate p → ∃ t2 l2, b = .propId t2 l2))
    (hlast : ∀ n ∈ g.nodes, n.instruction.id = a → n.instruction.isPropagate = true →
      ∃ l2, g.nodes = l2 ++ [n])
    (hG : GraphInv g) : GraphInv (g.addDependency a b) := by
  cases hfind : g.findNode a with
  | none => simpa only [DependencyGraph.addDependency, hfind] using hG
  | some fnode =>
    by_cases hbdep : b ∈ fnode.dependsOn
    · simpa only [DependencyGraph.addDependency, hfind, if_pos hbdep] using hG
    · obtain ⟨hfmem, hfid⟩ := findNode_eq_some hfind
      have hid_unique : ∀ n ∈ g.nodes, n.instruction.id = a → n = fnode := fun n hn hidn =>
        mem_unique_of_idsNodup hG.idsNodup hn hfmem (by rw [hidn, hfid])
      simp only [DependencyGraph.addDependency, hfind, if_neg hbdep]
      have hids : (g.nodes.map (addEdgeUpdate a b)).map (fun n => n.instruction.id)
          = g.nodes.map (fun n => n.instruction.id) := by
        rw [List.map_map]
        apply List.map_congr_left
        intro n _
        simp [Function.comp, addEdgeUpdate_id]
      have hlift : ∀ i, (∃ m ∈ g.nodes, m.instruction.id = i) →
          ∃ m' ∈ g.nodes.map (addEdgeUpdate a b), m'.instruction.id = i := by
        rintro i ⟨m, hm, hmid⟩
        exact ⟨addEdgeUpdate a b m, List.mem_map_of_mem _ hm, by rw [addEdgeUpdate_id, hmid]⟩
      constructor
      · show ((g.nodes.map (addEdgeUpdate a b)).map (fun n => n.instruction.id)).Nodup
        rw [hids]
        exact hG.idsNodup
      · -- closed
        intro n' hn' i hi
        obtain ⟨n, hn, rfl⟩ := List.mem_map.mp hn'
        rcases hi with hi | hi
        · rw [addEdgeUpdate_dep a b hab] at hi
          by_cases hna : n.instruction.id = a
          · rw [if_pos hna] at hi
            rcases List.mem_append.mp hi with h1 | h2
            · exact hlift i (hG.closed n hn i (Or.inl h1))
            · have hib : i = b := by simpa using h2
              subst hib
              exact hlift _ hbmem
          · rw [if_neg hna] at hi
            exact hlift i (hG.closed n hn i (Or.inl hi))
        · rw [addEdgeUpdate_me a b hab] at hi
          by_cases hnb : n.instruction.id = b
          · rw [if_pos hnb] at hi
            rcases List.mem_append.mp hi with h1 | h2
            · exact hlift i (hG.closed n hn i (Or.inr h1))
            · have hia : i = a := by simpa using h2
              subst hia
              exact hlift _ ⟨fnode, hfmem, hfid⟩
          · rw [if_neg hnb] at hi
            exact hlift i (hG.closed n hn i (Or.inr hi))
      · -- symmetric edges
        intro x' hx' y' hy'
        obtain ⟨x, hx, rfl⟩ := List.mem_map.mp hx'
        obtain ⟨y, hy, rfl⟩ := List.mem_map.mp hy'
        rw [addEdgeUpdate_id, addEdgeUpdate_id, addEdgeUpdate_dep a b hab,
          addEdgeUpdate_me a b hab]
        have hold := hG.symEdge x hx y hy
        by_cases hxa : x.instruction.id = a
        · rw [if_pos hxa]
          by_cases hyb : y.instruction.id = b
          · rw [if_pos hyb]
            constructor
            · intro _
              exact List.mem_append.mpr (Or.inr (by simp [hxa]))
            · intro _
              exact List.mem_append.mpr (Or.inr (by simp [hyb]))
          · rw [if_neg hyb]
            constructor
            · intro hmem
              rcases List.mem_append.mp hmem with h1 | h2
              · exact hold.mp h1
              · exact absurd (by simpa using h2) hyb
            · intro hmem
              exact List.mem_append.mpr (Or.inl (hold.mpr hmem))
        · rw [if_neg hxa]
          by_cases hyb : y.instruction.id = b
          · rw [if_pos hyb]
            constructor
            · intro h1
              exact List.mem_append.mpr (Or.inl (hold.mp h1))
            · intro hmem
              rcases List.mem_append.mp hmem with h1 | h2
              · exact hold.mpr h1
              · exact absurd (by simpa using h2) hxa
          · rw [if_neg hyb]
            exact hold
      · -- no duplicate edges
        intro n' hn'
        obtain ⟨n, hn, rfl⟩ := List.mem_map.mp hn'
        rw [addEdgeUpdate_dep a b hab, addEdgeUpdate_me a b hab]
        obtain ⟨hdep, hme⟩ := hG.edgesNodup n hn
        constructor
        · by_cases hna : n.instruction.id = a
          · rw [if_pos hna]
            have : n = fnode := hid_unique n hn hna
            subst this
            simp [List.nodup_append, hdep, hbdep]
          · rw [if_neg hna]
            exact hdep
        · by_cases hnb : n.instruction.id = b
          · rw [if_pos hnb]
            have hnotme : a ∉ n.dependsOnMe := by
              intro hcontra
              have := (hG.symEdge fnode hfmem n hn)
              rw [hfid, hnb] at this
              exact hbdep (this.mpr hcontra)
            simp [List.nodup_append, hme, hnotme]
          · rw [if_neg hnb]
            exact hme
      · -- no self loops
        intro n' hn'
        obtain ⟨n, hn, rfl⟩ := List.mem_map.mp hn'
        rw [addEdgeUpdate_id, addEdgeUpdate_dep a b hab]
        by_cases hna : n.instruction.id = a
        · rw [if_pos hna]
          intro hcontra
          rcases List.mem_append.mp hcontra with h1 | h2
          · exact hG.noSelf n hn h1
          · rw [hna] at h2
            exact hab (by simpa using h2)
        · rw [if_neg hna]
          exact hG.noSelf n hn
      · -- instruction-node dependency shape
        intro n' hn' li hli i hi
        obtain ⟨n, hn, rfl⟩ := List.mem_map.mp hn'
        rw [addEdgeUpdate_instr] at hli
        rw [addEdgeUpdate_dep a b hab] at hi
        by_cases hna : n.instruction.id = a
        · rw [if_pos hna] at hi
          rcases List.mem_append.mp hi with h1 | h2
          · exact hG.instrShape n hn li hli i h1
          · have : i = b := by simpa using h2
            subst this
            exact (hshape n hn hna).1 li hli
        · rw [if_neg hna] at hi
          exact hG.instrShape n hn li hli i hi
      · -- propagate-node dependency shape
        intro n' hn' p hp i hi
        obtain ⟨n, hn, rfl⟩ := List.mem_map.mp hn'
        rw [addEdgeUpdate_instr] at hp
        rw [addEdgeUpdate_dep a b hab] at hi
        by_cases hna : n.instruction.id = a
        · rw [if_pos hna] at hi
          rcases List.mem_append.mp hi with h1 | h2
          · exact hG.propShape n hn p hp i h1
          · have : i = b := by simpa using h2
            subst this
            exact (hshape n hn hna).2 p hp
        · rw [if_neg hna] at hi
          exact hG.propShape n hn p hp i hi
      · -- propagate drain order (list positions)
        show (g.nodes.map (addEdgeUpdate a b)).Pairwise _
        rw [List.pairwise_map]
        by_cases hxprop : fnode.instruction.isPropagate = true
        · obtain ⟨l2, hl2⟩ := hlast fnode hfmem hfid hxprop
          have hold := hG.propOrder
          rw [hl2] at hold
          rw [List.pairwise_append] at hold
          obtain ⟨h1, _, h3⟩ := hold
          have hid_l2 : ∀ u ∈ l2, u.instruction.id ≠ a := by
            intro u hu hua
            have hnd := hG.idsNodup
            rw [hl2, List.map_append] at hnd
            have hdisj := (List.nodup_append.mp hnd).2.2
            exact hdisj (List.mem_map.mpr ⟨u, hu, hua⟩) (by simp [hfid])
          rw [hl2, List.pairwise_append]
          refine ⟨?_, ?_, ?_⟩
          · apply List.Pairwise.imp_of_mem ?_ h1
            intro u v hu hv huv hprop'
            rw [addEdgeUpdate_id, addEdgeUpdate_dep a b hab, if_neg (hid_l2 u hu)]
            rw [addEdgeUpdate_instr] at hprop'
            exact huv hprop'
          · simp
          · intro u hu v hv hprop'
            have hv' : v = fnode := by simpa using hv
            subst hv'
            rw [addEdgeUpdate_id, addEdgeUpdate_dep a b hab, if_neg (hid_l2 u hu)]
            rw [addEdgeUpdate_instr] at hprop'
            exact h3 u hu v (by simp) hprop'
        · apply List.Pairwise.imp_of_mem ?_ hG.propOrder
          intro u v hu hv huv hprop'
          rw [addEdgeUpdate_instr] at hprop'
          rw [addEdgeUpdate_id, addEdgeUpdate_dep a b hab]
          by_cases hua : u.instruction.id = a
          · exact absurd hprop' (by rw [hid_unique u hu hua]; exact hxprop)
          · rw [if_neg hua]
            exact huv hprop'
      · -- propagate ids stay fresh relative to instruction ids
        intro n' hn' t l hid' m' hm'
        obtain ⟨n, hn, rfl⟩ := List.mem_map.mp hn'
        obtain ⟨m, hm, rfl⟩ := List.mem_map.mp hm'
        rw [addEdgeUpdate_id] at hid' ⊢
        exact hG.propFresh n hn t l hid' m hm

/-! ### Id-shape and transport lemmas -/

theorem id_instrId {n : InstructionNode} {t l : Nat}
    (h : n.instruction.id = .instrId t l) :
    ∃ li, n.instruction = .instruction li ∧ li.threadId = t ∧ li.lineIndex = l := by
  cases hni : n.instruction with
  | instruction li =>
    rw [hni] at h
    simp only [NodeType.id, NodeId.instrId.injEq] at h
    exact ⟨li, rfl, h.1, h.2⟩
  | propagate p =>
    rw [hni] at h
    simp [NodeType.id] at h

theorem id_propId {n : InstructionNode} {t l : Nat}
    (h : n.instruction.id = .propId t l) :
    ∃ p, n.instruction = .propagate p ∧ p.associatedWrite.threadId = t ∧
      p.associatedWrite.lineIndex = l := by
  cases hni : n.instruction with
  | instruction li =>
    rw [hni] at h
    simp [NodeType.id] at h
  | propagate p =>
    rw [hni] at h
    simp only [NodeType.id, NodeId.propId.injEq] at h
    exact ⟨p, rfl, h.1, h.2⟩

theorem exists_node_of_instr_map_eq {g g' : DependencyGraph}
    (h : g'.nodes.map (fun n => n.instruction) = g.nodes.map (fun n => n.instruction))
    {Q : NodeType → Prop} :
    (∃ n ∈ g.nodes, Q n.instruction) → ∃ n' ∈ g'.nodes, Q n'.instruction := by
  rintro ⟨n, hn, hq⟩
  have hmem : n.instruction ∈ g'.nodes.map (fun n => n.instruction) := by
    rw [h]
    exact List.mem_map_of_mem _ hn
  obtain ⟨n', hn', he⟩ := List.mem_map.mp hmem
  exact ⟨n', hn', by rw [he]; exact hq⟩

theorem foldl_addDep_right_instr_map (ds : List NodeId) (cur : NodeId) :
    ∀ g : DependencyGraph,
      ((ds.foldl (fun g2 d => g2.addDependency d cur) g).nodes.map (fun n => n.instruction))
        = g.nodes.map (fun n => n.instruction) := by
  induction ds with
  | nil => intro g; rfl
  | cons d ds ih =>
    intro g
    rw [List.foldl_cons, ih, addDependency_instr_map]

theorem foldl_addDep_left_instr_map (ds : List NodeId) (a : NodeId) :
    ∀ g : DependencyGraph,
      ((ds.foldl (fun g2 d => g2.addDependency a d) g).nodes.map (fun n => n.instruction))
        = g.nodes.map (fun n => n.instruction) := by
  induction ds with
  | nil => intro g; rfl
  | cons d ds ih =>
    intro g
    rw [List.foldl_cons, ih, addDependency_instr_map]

/-- A list of instruction-only nodes satisfies the propagate drain-order
invariant vacuously. -/
theorem pairwise_of_no_propagate (l : List InstructionNode)
    (h : ∀ n ∈ l, n.instruction.isPropagate = false) :
    l.Pairwise (fun a b => a.instruction.isPropagate = true →
      b.instruction.id ∉ a.dependsOn) := by
  induction l with
  | nil => exact List.Pairwise.nil
  | cons n l ih =>
    refine List.Pairwise.cons ?_ (ih (fun m hm => h m (List.mem_cons_of_mem n hm)))
    intro m _ hprop
    rw [h n (List.mem_cons_self n l)] at hprop
    cases hprop

/-! ### `add_rel_deps` / `add_acq_deps` preserve the invariants -/

theorem addRelDeps_GInv (g : DependencyGraph) (curNode : InstructionNode)
    (curInstr : LabeledInstruction)
    (hcur : curNode.instruction = .instruction curInstr)
    (hmem : ∃ n ∈ g.nodes, n.instruction = curNode.instruction)
    (hG : GraphInv g) : GraphInv (g.addRelDeps curNode) := by
  simp only [DependencyGraph.addRelDeps, hcur]
  have hsound := dfsFilter_sound g (fun other =>
    match other with
    | .instruction otherInstr =>
      decide (curInstr.threadId = otherInstr.threadId) &&
        decide (curInstr.lineIndex < otherInstr.lineIndex)
    | _ => false)
  have hcmem : ∃ n ∈ g.nodes, n.instruction = NodeType.instruction curInstr := by
    obtain ⟨m, hm, he⟩ := hmem
    exact ⟨m, hm, by rw [he, hcur]⟩
  suffices H : ∀ (ds : List NodeId) (gk : DependencyGraph),
      (gk.nodes.map (fun n => n.instruction) = g.nodes.map (fun n => n.instruction)) →
      GraphInv gk →
      (∀ d ∈ ds, ∃ n ∈ g.nodes, n.instruction.id = d ∧
        (match n.instruction with
          | .instruction otherInstr =>
            decide (curInstr.threadId = otherInstr.threadId) &&
              decide (curInstr.lineIndex < otherInstr.lineIndex)
          | _ => false) = true) →
      GraphInv (ds.foldl
        (fun g2 d => g2.addDependency d (NodeType.instruction curInstr).id) gk) by
    exact H _ g rfl hG hsound
  intro ds
  induction ds with
  | nil => intro gk _ hGk _; exact hGk
  | cons d ds ih =>
    intro gk hmapk hGk hd
    rw [List.foldl_cons]
    obtain ⟨n0, hn0, hid0, hp0⟩ := hd d (List.mem_cons_self d ds)
    cases hn0i : n0.instruction with
    | propagate p => rw [hn0i] at hp0; simp at hp0
    | instruction otherInstr =>
      rw [hn0i] at hp0
      simp only [Bool.and_eq_true, decide_eq_true_eq] at hp0
      obtain ⟨hth, hlt⟩ := hp0
      have hdid : d = .instrId otherInstr.threadId otherInstr.lineIndex := by
        rw [← hid0, hn0i]
        rfl
      have hstep : GraphInv (gk.addDependency d (NodeType.instruction curInstr).id) := by
        apply addDependency_GInv gk d (NodeType.instruction curInstr).id
        · rw [hdid]
          intro hc
          simp only [NodeType.id, NodeId.instrId.injEq] at hc
          omega
        · have := exists_node_of_instr_map_eq hmapk
            (Q := fun nt => nt.id = (NodeType.instruction curInstr).id)
            (by obtain ⟨m, hm, he⟩ := hcmem; exact ⟨m, hm, by rw [he]⟩)
          obtain ⟨n', hn', he'⟩ := this
          exact ⟨n', hn', he'⟩
        · intro n hn hidn
          obtain ⟨li2, hli2, ht2, hl2⟩ := id_instrId (hidn.trans hdid)
          constructor
          · intro li hli
            have hle : li2 = li := by
              rw [hli] at hli2
              injection hli2 with h
              exact h.symm
            left
            refine ⟨curInstr.lineIndex, ?_, ?_⟩
            · rw [← hle, hl2]
              exact hlt
            · show NodeType.id (NodeType.instruction curInstr)
                = NodeId.instrId li.threadId curInstr.lineIndex
              simp only [NodeType.id]
              rw [← hle, ht2, ← hth]
          · intro p hp
            rw [hp] at hli2
            cases hli2
        · intro n hn hidn hprop
          obtain ⟨li2, hli2, _, _⟩ := id_instrId (hidn.trans hdid)
          rw [hli2] at hprop
          simp [NodeType.isPropagate] at hprop
        · exact hGk
      refine ih _ ?_ hstep (fun d2 hd2 => hd d2 (List.mem_cons_of_mem d hd2))
      rw [addDependency_instr_map, hmapk]

theorem addAcqDeps_GInv (g : DependencyGraph) (curNode : InstructionNode)
    (curInstr : LabeledInstruction)
    (hcur : curNode.instruction = .instruction curInstr)
    (hmem : ∃ n ∈ g.nodes, n.instruction = curNode.instruction)
    (hG : GraphInv g) : GraphInv (g.addAcqDeps curNode) := by
  simp only [DependencyGraph.addAcqDeps, hcur]
  have hsound := dfsFilter_sound g (fun other =>
    match other with
    | .instruction otherInstr =>
      decide (curInstr.threadId = otherInstr.threadId) &&
        decide (curInstr.lineIndex > otherInstr.lineIndex)
    | _ => false)
  suffices H : ∀ (ds : List NodeId) (gk : DependencyGraph),
      (gk.nodes.map (fun n => n.instruction) = g.nodes.map (fun n => n.instruction)) →
      GraphInv gk →
      (∀ d ∈ ds, ∃ n ∈ g.nodes, n.instruction.id = d ∧
        (match n.instruction with
          | .instruction otherInstr =>
            decide (curInstr.threadId = otherInstr.threadId) &&
              decide (curInstr.lineIndex > otherInstr.lineIndex)
          | _ => false) = true) →
      GraphInv (ds.foldl
        (fun g2 d => g2.addDependency (NodeType.instruction curInstr).id d) gk) by
    exact H _ g rfl hG hsound
  intro ds
  induction ds with
  | nil => intro gk _ hGk _; exact hGk
  | cons d ds ih =>
    intro gk hmapk hGk hd
    rw [List.foldl_cons]
    obtain ⟨n0, hn0, hid0, hp0⟩ := hd d (List.mem_cons_self d ds)
    cases hn0i : n0.instruction with
    | propagate p => rw [hn0i] at hp0; simp at hp0
    | instruction otherInstr =>
      rw [hn0i] at hp0
      simp only [Bool.and_eq_true, decide_eq_true_eq] at hp0
      obtain ⟨hth, hlt⟩ := hp0
      have hdid : d = .instrId otherInstr.threadId otherInstr.lineIndex := by
        rw [← hid0, hn0i]
        rfl
      have hstep : GraphInv (gk.addDependency (NodeType.instruction curInstr).id d) := by
        apply addDependency_GInv gk (NodeType.instruction curInstr).id d
        · rw [hdid]
          intro hc
          simp only [NodeType.id, NodeId.instrId.injEq] at hc
          omega
        · exact exists_node_of_instr_map_eq hmapk
            (Q := fun nt => nt.id = d) ⟨n0, hn0, hid0⟩
        · intro n hn hidn
          obtain ⟨li2, hli2, ht2, hl2⟩ :=
            id_instrId (show n.instruction.id = _ from hidn)
          constructor
          · intro li hli
            have hle : li2 = li := by
              rw [hli] at hli2
              injection hli2 with h
              exact h.symm
            left
            refine ⟨otherInstr.lineIndex, ?_, ?_⟩
            · rw [← hle, hl2]
              exact hlt
            · rw [hdid, ← hle, ht2, hth]
          · intro p hp
            rw [hp] at hli2
            cases hli2
        · intro n hn hidn hprop
          obtain ⟨li2, hli2, _, _⟩ :=
            id_instrId (show n.instruction.id = _ from hidn)
          rw [hli2] at hprop
          simp [NodeType.isPropagate] at hprop
        · exact hGk
      refine ih _ ?_ hstep (fun d2 hd2 => hd d2 (List.mem_cons_of_mem d hd2))
      rw [addDependency_instr_map, hmapk]

theorem addRelDeps_instr_map (g : DependencyGraph) (curNode : InstructionNode) :
    (g.addRelDeps curNode).nodes.map (fun n => n.instruction)
      = g.nodes.map (fun n => n.instruction) := by
  cases hcur : curNode.instruction with
  | propagate p => simp only [DependencyGraph.addRelDeps, hcur]
  | instruction c =>
    simp only [DependencyGraph.addRelDeps, hcur]
    exact foldl_addDep_right_instr_map _ _ g

theorem addAcqDeps_instr_map (g : DependencyGraph) (curNode : InstructionNode) :
    (g.addAcqDeps curNode).nodes.map (fun n => n.instruction)
      = g.nodes.map (fun n => n.instruction) := by
  cases hcur : curNode.instruction with
  | propagate p => simp only [DependencyGraph.addAcqDeps, hcur]
  | instruction c =>
    simp only [DependencyGraph.addAcqDeps, hcur]
    exact foldl_addDep_left_instr_map _ _ g

theorem addDependencies_GInv (g : DependencyGraph) (i : Nat) (hG : GraphInv g) :
    GraphInv (g.addDependencies i) := by
  cases hnode : g.nodes[i]? with
  | none => simpa only [DependencyGraph.addDependencies, hnode] using hG
  | some node =>
    have hmem : node ∈ g.nodes := List.getElem?_mem hnode
    have hmem' : ∃ n ∈ g.nodes, n.instruction = node.instruction := ⟨node, hmem, rfl⟩
    cases hni : node.instruction with
    | propagate p => simpa only [DependencyGraph.addDependencies, hnode, hni] using hG
    | instruction instruction =>
      cases hinstr : instruction.instruction with
      | assignConst r v =>
        simpa only [DependencyGraph.addDependencies, hnode, hni, hinstr] using hG
      | assignOperation r1 r2 op r3 =>
        simpa only [DependencyGraph.addDependencies, hnode, hni, hinstr] using hG
      | conditionalJump r lbl =>
        simpa only [DependencyGraph.addDependencies, hnode, hni, hinstr] using hG
      | load am r1 r2 =>
        simp only [DependencyGraph.addDependencies, hnode, hni, hinstr]
        generalize getAccessModeSeqCst (Instruction.load am r1 r2) am = m
        cases m
        case rel => exact addRelDeps_GInv g node instruction hni hmem' hG
        case acq => exact addAcqDeps_GInv g node instruction hni hmem' hG
        case relAcq =>
          apply addAcqDeps_GInv _ node instruction hni
          · exact exists_node_of_instr_map_eq (addRelDeps_instr_map g node)
              (Q := fun nt => nt = node.instruction) hmem'
          · exact addRelDeps_GInv g node instruction hni hmem' hG
        case seqCst => exact hG
        case rlx => exact hG
      | store am r1 r2 =>
        simp only [DependencyGraph.addDependencies, hnode, hni, hinstr]
        generalize getAccessModeSeqCst (Instruction.store am r1 r2) am = m
        cases m
        case rel => exact addRelDeps_GInv g node instruction hni hmem' hG
        case acq => exact addAcqDeps_GInv g node instruction hni hmem' hG
        case relAcq =>
          apply addAcqDeps_GInv _ node instruction hni
          · exact exists_node_of_instr_map_eq (addRelDeps_instr_map g node)
              (Q := fun nt => nt = node.instruction) hmem'
          · exact addRelDeps_GInv g node instruction hni hmem' hG
        case seqCst => exact hG
        case rlx => exact hG
      | cas r1 am r2 r3 r4 =>
        simp only [DependencyGraph.addDependencies, hnode, hni, hinstr]
        generalize getAccessModeSeqCst (Instruction.cas r1 am r2 r3 r4) am = m
        cases m
        case rel => exact addRelDeps_GInv g node instruction hni hmem' hG
        case acq => exact addAcqDeps_GInv g node instruction hni hmem' hG
        case relAcq =>
          apply addAcqDeps_GInv _ node instruction hni
          · exact exists_node_of_instr_map_eq (addRelDeps_instr_map g node)
              (Q := fun nt => nt = node.instruction) hmem'
          · exact addRelDeps_GInv g node instruction hni hmem' hG
        case seqCst => exact hG
        case rlx => exact hG
      | fai r1 am r2 r3 =>
        simp only [DependencyGraph.addDependencies, hnode, hni, hinstr]
        generalize getAccessModeSeqCst (Instruction.fai r1 am r2 r3) am = m
        cases m
        case rel => exact addRelDeps_GInv g node instruction hni hmem' hG
        case acq => exact addAcqDeps_GInv g node instruction hni hmem' hG
        case relAcq =>
          apply addAcqDeps_GInv _ node instruction hni
          · exact exists_node_of_instr_map_eq (addRelDeps_instr_map g node)
              (Q := fun nt => nt = node.instruction) hmem'
          · exact addRelDeps_GInv g node instruction hni hmem' hG
        case seqCst => exact hG
        case rlx => exact hG
      | fence am =>
        simp only [DependencyGraph.addDependencies, hnode, hni, hinstr]
        generalize getAccessModeSeqCst (Instruction.fence am) am = m
        cases m
        case rel => exact addRelDeps_GInv g node instruction hni hmem' hG
        case acq => exact addAcqDeps_GInv g node instruction hni hmem' hG
        case relAcq =>
          apply addAcqDeps_GInv _ node instruction hni
          · exact exists_node_of_instr_map_eq (addRelDeps_instr_map g node)
              (Q := fun nt => nt = node.instruction) hmem'
          · exact addRelDeps_GInv g node instruction hni hmem' hG
        case seqCst => exact hG
        case rlx => exact hG

theorem addDependencies_instr_map (g : DependencyGraph) (i : Nat) :
    (g.addDependencies i).nodes.map (fun n => n.instruction)
      = g.nodes.map (fun n => n.instruction) := by
  cases hnode : g.nodes[i]? with
  | none => simp only [DependencyGraph.addDependencies, hnode]
  | some node =>
    cases hni : node.instruction with
    | propagate p => simp only [DependencyGraph.addDependencies, hnode, hni]
    | instruction instruction =>
      cases hinstr : instruction.instruction <;>
        simp only [DependencyGraph.addDependencies, hnode, hni, hinstr] <;>
        try rfl
      all_goals
        generalize getAccessModeSeqCst _ _ = m
        cases m <;>
          simp only [addRelDeps_instr_map, addAcqDeps_instr_map]

theorem buildDependencies_GInv (g : DependencyGraph) (hG : GraphInv g) :
    GraphInv g.buildDependencies := by
  unfold DependencyGraph.buildDependencies
  generalize List.range g.nodes.length = idxs
  induction idxs generalizing g with
  | nil => exact hG
  | cons i idxs ih =>
    rw [List.foldl_cons]
    exact ih _ (addDependencies_GInv g i hG)

theorem buildDependencies_instr_map (g : DependencyGraph) :
    g.buildDependencies.nodes.map (fun n => n.instruction)
      = g.nodes.map (fun n => n.instruction) := by
  unfold DependencyGraph.buildDependencies
  generalize List.range g.nodes.length = idxs
  induction idxs generalizing g with
  | nil => rfl
  | cons i idxs ih =>
    rw [List.foldl_cons, ih, addDependencies_instr_map]

/-! ### The initial state satisfies the invariants -/

theorem initNodes_eq (programs : List (List LabeledInstruction)) :
    programs.foldl (fun acc program =>
      acc ++ program.map (fun i => (⟨.instruction i, [], []⟩ : InstructionNode))) []
    = programs.flatten.map (fun i => ⟨.instruction i, [], []⟩) := by
  suffices H : ∀ (ps : List (List LabeledInstruction)) (acc : List InstructionNode),
      ps.foldl (fun acc program =>
        acc ++ program.map (fun i => (⟨.instruction i, [], []⟩ : InstructionNode))) acc
      = acc ++ ps.flatten.map (fun i => ⟨.instruction i, [], []⟩) by
    simpa using H programs []
  intro ps
  induction ps with
  | nil => intro acc; simp
  | cons p ps ih =>
    intro acc
    rw [List.foldl_cons, ih, List.flatten_cons, List.map_append, List.append_assoc]

theorem wf_spec (programs : List (List LabeledInstruction))
    (h : WFPrograms programs = true) :
    ∀ (ti : Nat) (p : List LabeledInstruction), programs[ti]? = some p →
      ∀ (k : Nat) (li : LabeledInstruction), p[k]? = some li →
        li.threadId = ti ∧ li.lineIndex = k := by
  intro ti p hp k li hli
  unfold WFPrograms at h
  rw [List.all_eq_true] at h
  have h1 := h (ti, p) (List.mk_mem_enum_iff_getElem?.mpr hp)
  simp only [List.all_eq_true] at h1
  have h2 := h1 (k, li) (List.mk_mem_enum_iff_getElem?.mpr hli)
  simpa using h2

theorem wf_prog_ids_nodup : ∀ (p : List LabeledInstruction) (t j : Nat),
    (∀ (k : Nat) (li : LabeledInstruction), p[k]? = some li →
      li.threadId = t ∧ li.lineIndex = j + k) →
    (p.map (fun li => NodeId.instrId li.threadId li.lineIndex)).Nodup := by
  intro p
  induction p with
  | nil => intro t j _; simp
  | cons li p ih =>
    intro t j h
    rw [List.map_cons, List.nodup_cons]
    constructor
    · intro hcontra
      obtain ⟨li2, hli2, he⟩ := List.mem_map.mp hcontra
      obtain ⟨k, hk⟩ := List.getElem?_of_mem hli2
      have h2 := h (k + 1) li2 (by simpa using hk)
      have h0 := h 0 li (by simp)
      simp only [NodeId.instrId.injEq] at he
      have := h2.2
      have := h0.2
      omega
    · exact ih t (j + 1) (fun k li2 hk => by
        have := h (k + 1) li2 (by simpa using hk)
        exact ⟨this.1, by omega⟩)

theorem wf_flatten_ids_nodup : ∀ (ps : List (List LabeledInstruction)) (t0 : Nat),
    (∀ (i : Nat) (p : List LabeledInstruction), ps[i]? = some p →
      ∀ (k : Nat) (li : LabeledInstruction), p[k]? = some li →
        li.threadId = t0 + i ∧ li.lineIndex = k) →
    ((ps.flatten).map (fun li => NodeId.instrId li.threadId li.lineIndex)).Nodup := by
  intro ps
  induction ps with
  | nil => intro t0 _; simp
  | cons p ps ih =>
    intro t0 h
    rw [List.flatten_cons, List.map_append, List.nodup_append]
    refine ⟨?_, ?_, ?_⟩
    · exact wf_prog_ids_nodup p t0 0 (fun k li hk => by
        have := h 0 p (by simp) k li hk
        exact ⟨by omega, by simpa using this.2⟩)
    · exact ih (t0 + 1) (fun i p2 hp2 k li hk => by
        have := h (i + 1) p2 (by simpa using hp2) k li hk
        exact ⟨by omega, this.2⟩)
    · intro x hx hx2
      obtain ⟨li1, hli1, he1⟩ := List.mem_map.mp hx
      obtain ⟨li2, hli2, he2⟩ := List.mem_map.mp hx2
      obtain ⟨k1, hk1⟩ := List.getElem?_of_mem hli1
      have ht1 := (h 0 p (by simp) k1 li1 (by simpa using hk1)).1
      obtain ⟨l2, hl2mem, hli2mem⟩ := List.mem_flatten.mp hli2
      obtain ⟨i2, hi2⟩ := List.getElem?_of_mem hl2mem
      obtain ⟨k2, hk2⟩ := List.getElem?_of_mem hli2mem
      have ht2 := (h (i2 + 1) l2 (by simpa using hi2) k2 li2 (by simpa using hk2)).1
      rw [← he2] at he1
      simp only [NodeId.instrId.injEq] at he1
      omega

theorem tsoNew_GInv (programs : List (List LabeledInstruction)) (pso : Bool)
    (hwf : WFPrograms programs = true) :
    GraphInv (TSO.new programs pso).dependencyGraph := by
  apply buildDependencies_GInv
  have hnodes : (⟨programs.foldl (fun acc program =>
      acc ++ program.map (fun i => (⟨.instruction i, [], []⟩ : InstructionNode))) []⟩ :
        DependencyGraph).nodes
      = programs.flatten.map (fun i => ⟨.instruction i, [], []⟩) := initNodes_eq programs
  have hform : ∀ n ∈ (⟨programs.foldl (fun acc program =>
      acc ++ program.map (fun i => (⟨.instruction i, [], []⟩ : InstructionNode))) []⟩ :
        DependencyGraph).nodes,
      ∃ li, n = ⟨.instruction li, [], []⟩ := by
    intro n hn
    rw [hnodes] at hn
    obtain ⟨li, _, he⟩ := List.mem_map.mp hn
    exact ⟨li, he.symm⟩
  constructor
  · show ((⟨programs.foldl _ []⟩ : DependencyGraph).nodes.map
      (fun n => n.instruction.id)).Nodup
    rw [hnodes, List.map_map]
    have : ((fun n : InstructionNode => n.instruction.id) ∘
        (fun i : LabeledInstruction => (⟨.instruction i, [], []⟩ : InstructionNode)))
        = fun li : LabeledInstruction => NodeId.instrId li.threadId li.lineIndex := rfl
    rw [this]
    exact wf_flatten_ids_nodup programs 0 (fun i p hp k li hk => by
      have := wf_spec programs hwf i p hp k li hk
      exact ⟨by omega, this.2⟩)
  · intro n hn i hi
    obtain ⟨li, rfl⟩ := hform n hn
    rcases hi with hi | hi <;> cases hi
  · intro a ha b hb
    obtain ⟨li1, rfl⟩ := hform a ha
    obtain ⟨li2, rfl⟩ := hform b hb
    simp
  · intro n hn
    obtain ⟨li, rfl⟩ := hform n hn
    exact ⟨List.nodup_nil, List.nodup_nil⟩
  · intro n hn
    obtain ⟨li, rfl⟩ := hform n hn
    simp
  · intro n hn li2 _ i hi
    obtain ⟨li, rfl⟩ := hform n hn
    cases hi
  · intro n hn p _ i hi
    obtain ⟨li, rfl⟩ := hform n hn
    cases hi
  · apply pairwise_of_no_propagate
    intro n hn
    obtain ⟨li, rfl⟩ := hform n hn
    rfl
  · intro n hn t l hid
    obtain ⟨li, rfl⟩ := hform n hn
    cases hid

theorem tsoNew_countInv (programs : List (List LabeledInstruction)) (pso : Bool) :
    ∀ t, (TSO.new programs pso).dependencyGraph.propagateCount t
      = (TSO.new programs pso).bufferLen t := by
  intro t
  have hbuf : (TSO.new programs pso).bufferLen t = 0 := rfl
  rw [hbuf]
  unfold DependencyGraph.propagateCount
  rw [List.length_eq_zero]
  rw [List.filter_eq_nil]
  intro n hn
  have hmem : n.instruction ∈ (TSO.new programs pso).dependencyGraph.nodes.map
      (fun n => n.instruction) := List.mem_map_of_mem _ hn
  have : (TSO.new programs pso).dependencyGraph.nodes.map (fun n => n.instruction)
      = programs.flatten.map (fun i => NodeType.instruction i) := by
    show (DependencyGraph.buildDependencies _).nodes.map _ = _
    rw [buildDependencies_instr_map]
    rw [show (⟨programs.foldl (fun acc program =>
      acc ++ program.map (fun i => (⟨.instruction i, [], []⟩ : InstructionNode))) []⟩ :
        DependencyGraph).nodes = _ from initNodes_eq programs]
    rw [List.map_map]
    rfl
  rw [this] at hmem
  obtain ⟨li, _, he⟩ := List.mem_map.mp hmem
  rw [← he]
  simp [NodeType.isPropagate]

/-! ### `remove_node` preserves the graph invariants -/

/-- The unlink-and-delete phase of `remove_node` preserves the graph
invariants when the removed node is a leaf. -/
theorem removal_core_GInv (g : DependencyGraph) (nid : NodeId) (node : InstructionNode)
    (hmem : node ∈ g.nodes) (hid : node.instruction.id = nid)
    (hleaf : node.dependsOn = [])
    (hG : GraphInv g) :
    GraphInv ⟨(g.nodes.map (fun n =>
      if n.instruction.id ∈ node.dependsOnMe then
        { n with dependsOn := n.dependsOn.filter (fun d => decide (d ≠ nid)) }
      else n)).filter (fun n => decide (n.instruction.id ≠ nid))⟩ := by
  set F : InstructionNode → InstructionNode := fun n =>
    if n.instruction.id ∈ node.dependsOnMe then
      { n with dependsOn := n.dependsOn.filter (fun d => decide (d ≠ nid)) }
    else n with hF
  have hFinstr : ∀ n, (F n).instruction = n.instruction := by
    intro n
    rw [hF]
    dsimp only
    split <;> rfl
  have hFme : ∀ n, (F n).dependsOnMe = n.dependsOnMe := by
    intro n
    rw [hF]
    dsimp only
    split <;> rfl
  have hFdepsub : ∀ n i, i ∈ (F n).dependsOn → i ∈ n.dependsOn := by
    intro n i hi
    rw [hF] at hi
    dsimp only at hi
    split at hi
    · exact (List.mem_filter.mp hi).1
    · exact hi
  -- a surviving node never had an edge to the removed node except through
  -- the cleaned lists
  have hnid_dep : ∀ n ∈ g.nodes, nid ∉ (F n).dependsOn := by
    intro n hn hcontra
    rw [hF] at hcontra
    dsimp only at hcontra
    split at hcontra
    · have := (List.mem_filter.mp hcontra).2
      simp at this
    · next hnotme =>
      have hsym := hG.symEdge n hn node hmem
      rw [hid] at hsym
      exact hnotme (hsym.mp hcontra)
  have hnid_me : ∀ n ∈ g.nodes, nid ∉ (F n).dependsOnMe := by
    intro n hn hcontra
    rw [hFme] at hcontra
    have hsym := hG.symEdge node hmem n hn
    rw [hid] at hsym
    have := hsym.mpr hcontra
    rw [hleaf] at this
    cases this
  have hmemchar : ∀ n', n' ∈ (g.nodes.map F).filter
      (fun n => decide (n.instruction.id ≠ nid)) ↔
      ∃ n ∈ g.nodes, F n = n' ∧ n.instruction.id ≠ nid := by
    intro n'
    rw [List.mem_filter]
    constructor
    · rintro ⟨hmem', hne⟩
      obtain ⟨n, hn, rfl⟩ := List.mem_map.mp hmem'
      refine ⟨n, hn, rfl, ?_⟩
      rw [← hFinstr n]
      simpa using hne
    · rintro ⟨n, hn, rfl, hne⟩
      exact ⟨List.mem_map_of_mem F hn, by simpa [hFinstr n] using hne⟩
  constructor
  · -- nodup ids: a sublist of an id-preserving map
    have h1 : ((g.nodes.map F).filter
        (fun n => decide (n.instruction.id ≠ nid))).Sublist (g.nodes.map F) :=
      List.filter_sublist _
    have h2 : ((g.nodes.map F).map (fun n => n.instruction.id)).Nodup := by
      rw [List.map_map]
      have : ((fun n : InstructionNode => n.instruction.id) ∘ F)
          = fun n : InstructionNode => n.instruction.id := by
        funext n
        simp [Function.comp, hFinstr]
      rw [this]
      exact hG.idsNodup
    exact List.Nodup.sublist (List.Sublist.map _ h1) h2
  · -- closed
    intro n' hn' i hi
    obtain ⟨n, hn, rfl, hne⟩ := (hmemchar n').mp hn'
    have hiold : (i ∈ n.dependsOn ∨ i ∈ n.dependsOnMe) ∧ i ≠ nid := by
      rcases hi with hi | hi
      · exact ⟨Or.inl (hFdepsub n i hi), fun hc => hnid_dep n hn (hc ▸ hi)⟩
      · rw [hFme] at hi
        refine ⟨Or.inr hi, fun hc => hnid_me n hn ?_⟩
        rw [hFme]
        exact hc ▸ hi
    obtain ⟨m, hm, hmid⟩ := hG.closed n hn i hiold.1
    refine ⟨F m, (hmemchar (F m)).mpr ⟨m, hm, rfl, by rw [hmid]; exact hiold.2⟩, ?_⟩
    rw [hFinstr, hmid]
  · -- symmetry
    intro x' hx' y' hy'
    obtain ⟨x, hx, rfl, hxne⟩ := (hmemchar x').mp hx'
    obtain ⟨y, hy, rfl, hyne⟩ := (hmemchar y').mp hy'
    rw [hFinstr, hFinstr, hFme]
    have hold := hG.symEdge x hx y hy
    constructor
    · intro h
      exact hold.mp (hFdepsub x _ h)
    · intro h
      have hxdep := hold.mpr h
      rw [hF]
      dsimp only
      split
      · exact List.mem_filter.mpr ⟨hxdep, by simpa using hyne⟩
      · exact hxdep
  · -- nodup edges
    intro n' hn'
    obtain ⟨n, hn, rfl, _⟩ := (hmemchar n').mp hn'
    obtain ⟨hdep, hme⟩ := hG.edgesNodup n hn
    constructor
    · rw [hF]
      dsimp only
      split
      · exact List.Nodup.filter _ hdep
      · exact hdep
    · rw [hFme]
      exact hme
  · -- no self loops
    intro n' hn'
    obtain ⟨n, hn, rfl, _⟩ := (hmemchar n').mp hn'
    rw [hFinstr]
    intro hcontra
    exact hG.noSelf n hn (hFdepsub n _ hcontra)
  · -- instruction shape
    intro n' hn' li hli i hi
    obtain ⟨n, hn, rfl, _⟩ := (hmemchar n').mp hn'
    rw [hFinstr] at hli
    exact hG.instrShape n hn li hli i (hFdepsub n i hi)
  · -- propagate shape
    intro n' hn' p hp i hi
    obtain ⟨n, hn, rfl, _⟩ := (hmemchar n').mp hn'
    rw [hFinstr] at hp
    exact hG.propShape n hn p hp i (hFdepsub n i hi)
  · -- propagate drain order
    apply List.Pairwise.sublist (List.filter_sublist _)
    rw [List.pairwise_map]
    apply List.Pairwise.imp_of_mem ?_ hG.propOrder
    intro u v _ _ huv hprop
    rw [hFinstr] at hprop
    rw [hFinstr]
    intro hcontra
    exact huv hprop (hFdepsub u _ hcontra)
  · -- propagate freshness
    intro n' hn' t l hid' m' hm'
    obtain ⟨n, hn, rfl, _⟩ := (hmemchar n').mp hn'
    obtain ⟨m, hm, rfl, _⟩ := (hmemchar m').mp hm'
    rw [hFinstr] at hid' ⊢
    exact hG.propFresh n hn t l hid' m hm

/-- Appending a fresh, edge-free Propagate node preserves the invariants. -/
theorem append_prop_GInv (g1 : DependencyGraph) (instr : LabeledInstruction)
    (toLoc : Reference)
    (hfresh : ∀ m ∈ g1.nodes,
      m.instruction.id ≠ .propId instr.threadId instr.lineIndex)
    (hnoinstr : ∀ m ∈ g1.nodes,
      m.instruction.id ≠ .instrId instr.threadId instr.lineIndex)
    (hG1 : GraphInv g1) :
    GraphInv ⟨g1.nodes ++ [⟨.propagate ⟨instr, toLoc⟩, [], []⟩]⟩ := by
  set newNode : InstructionNode := ⟨.propagate ⟨instr, toLoc⟩, [], []⟩ with hnew
  have hnewid : newNode.instruction.id = .propId instr.threadId instr.lineIndex := rfl
  constructor
  · rw [List.map_append, List.nodup_append]
    refine ⟨hG1.idsNodup, by simp, ?_⟩
    intro x hx hx2
    obtain ⟨m, hm, he⟩ := List.mem_map.mp hx
    have : x = newNode.instruction.id := by simpa using hx2
    exact hfresh m hm (by rw [he, this, hnewid])
  · intro n hn i hi
    rcases List.mem_append.mp hn with hn | hn
    · obtain ⟨m, hm, hmid⟩ := hG1.closed n hn i hi
      exact ⟨m, List.mem_append_left _ hm, hmid⟩
    · have : n = newNode := by simpa using hn
      subst this
      rcases hi with hi | hi <;> cases hi
  · intro a ha b hb
    rcases List.mem_append.mp ha with ha | ha <;>
      rcases List.mem_append.mp hb with hb | hb
    · exact hG1.symEdge a ha b hb
    · have : b = newNode := by simpa using hb
      subst this
      constructor
      · intro hcontra
        obtain ⟨m, hm, hmid⟩ := hG1.closed a ha _ (Or.inl hcontra)
        exact (hfresh m hm (by rw [hmid, hnewid])).elim
      · intro hcontra
        cases hcontra
    · have : a = newNode := by simpa using ha
      subst this
      constructor
      · intro hcontra
        cases hcontra
      · intro hcontra
        obtain ⟨m, hm, hmid⟩ := hG1.closed b hb _ (Or.inr hcontra)
        exact (hfresh m hm (by rw [hmid, hnewid])).elim
    · have ha' : a = newNode := by simpa using ha
      have hb' : b = newNode := by simpa using hb
      subst ha'
      subst hb'
      constructor <;> intro hcontra <;> cases hcontra
  · intro n hn
    rcases List.mem_append.mp hn with hn | hn
    · exact hG1.edgesNodup n hn
    · have : n = newNode := by simpa using hn
      subst this
      exact ⟨List.nodup_nil, List.nodup_nil⟩
  · intro n hn
    rcases List.mem_append.mp hn with hn | hn
    · exact hG1.noSelf n hn
    · have : n = newNode := by simpa using hn
      subst this
      intro hcontra
      cases hcontra
  · intro n hn li hli i hi
    rcases List.mem_append.mp hn with hn | hn
    · exact hG1.instrShape n hn li hli i hi
    · have : n = newNode := by simpa using hn
      subst this
      cases hi
  · intro n hn p hp i hi
    rcases List.mem_append.mp hn with hn | hn
    · exact hG1.propShape n hn p hp i hi
    · have : n = newNode := by simpa using hn
      subst this
      cases hi
  · rw [List.pairwise_append]
    refine ⟨hG1.propOrder, by simp, ?_⟩
    intro a ha b hb hprop
    have : b = newNode := by simpa using hb
    subst this
    intro hcontra
    obtain ⟨m, hm, hmid⟩ := hG1.closed a ha _ (Or.inl hcontra)
    exact hfresh m hm (by rw [hmid, hnewid])
  · intro n hn t l hid' m hm
    rcases List.mem_append.mp hn with hn | hn
    · rcases List.mem_append.mp hm with hm | hm
      · exact hG1.propFresh n hn t l hid' m hm
      · have : m = newNode := by simpa using hm
        subst this
        rw [hnewid]
        intro hcontra
        cases hcontra
    · have : n = newNode := by simpa using hn
      subst this
      rw [hnewid] at hid'
      have ht : t = instr.threadId ∧ l = instr.lineIndex := by
        have h2 := hid'.symm
        simp only [NodeId.propId.injEq] at h2
        exact h2
      rcases List.mem_append.mp hm with hm | hm
      · rw [ht.1, ht.2]
        exact hnoinstr m hm
      · have : m = newNode := by simpa using hm
        subst this
        rw [hnewid]
        intro hcontra
        cases hcontra

/-- `add_dependency` keeps the last node of the list last (with the same
instruction). -/
theorem addDependency_last (g : DependencyGraph) (x y : NodeId)
    {l2 : List InstructionNode} {lastN : InstructionNode}
    (h : g.nodes = l2 ++ [lastN]) :
    ∃ l3 lastN', (g.addDependency x y).nodes = l3 ++ [lastN'] ∧
      lastN'.instruction = lastN.instruction := by
  cases hfind : g.findNode x with
  | none =>
    refine ⟨l2, lastN, ?_, rfl⟩
    simp only [DependencyGraph.addDependency, hfind]
    exact h
  | some fnode =>
    by_cases hdep : y ∈ fnode.dependsOn
    · refine ⟨l2, lastN, ?_, rfl⟩
      simp only [DependencyGraph.addDependency, hfind, if_pos hdep]
      exact h
    · refine ⟨l2.map (addEdgeUpdate x y), addEdgeUpdate x y lastN, ?_,
        addEdgeUpdate_instr x y lastN⟩
      simp only [DependencyGraph.addDependency, hfind, if_neg hdep]
      rw [h, List.map_append]
      rfl

theorem propagateCount_eq_of_instr_map {g g' : DependencyGraph}
    (h : g'.nodes.map (fun n => n.instruction) = g.nodes.map (fun n => n.instruction)) :
    ∀ t, g'.propagateCount t = g.propagateCount t := by
  intro t
  unfold DependencyGraph.propagateCount
  rw [← List.countP_eq_length_filter, ← List.countP_eq_length_filter]
  have hcp : ∀ l : List InstructionNode,
      l.countP (fun n => n.instruction.isPropagate && decide (n.instruction.threadId = t))
      = (l.map (fun n => n.instruction)).countP
          (fun nt => nt.isPropagate && decide (nt.threadId = t)) := by
    intro l
    rw [List.countP_map]
    rfl
  rw [hcp, hcp, h]

/-- The fence-edge fold of `remove_node` preserves the invariants. -/
theorem foldl_fence_GInv (g2 : DependencyGraph) (instr : LabeledInstruction) :
    ∀ (ds : List NodeId) (gk : DependencyGraph),
      (gk.nodes.map (fun n => n.instruction) = g2.nodes.map (fun n => n.instruction)) →
      (∀ d ∈ ds, ∃ n ∈ g2.nodes, n.instruction.id = d ∧
        ∃ oi, n.instruction = .instruction oi) →
      (∃ n ∈ g2.nodes, n.instruction.id = .propId instr.threadId instr.lineIndex) →
      GraphInv gk →
      GraphInv (ds.foldl (fun gg d =>
        gg.addDependency d (.propId instr.threadId instr.lineIndex)) gk) := by
  intro ds
  induction ds with
  | nil => intro gk _ _ _ hGk; exact hGk
  | cons d ds ih =>
    intro gk hmapk hds hpmem hGk
    rw [List.foldl_cons]
    obtain ⟨n0, hn0, hid0, oi, hoi⟩ := hds d (List.mem_cons_self d ds)
    have hdid : d = .instrId oi.threadId oi.lineIndex := by
      rw [← hid0, hoi]
      rfl
    have hstep : GraphInv (gk.addDependency d (.propId instr.threadId instr.lineIndex)) := by
      apply addDependency_GInv
      · rw [hdid]
        intro hc
        cases hc
      · exact exists_node_of_instr_map_eq hmapk
          (Q := fun nt => nt.id = .propId instr.threadId instr.lineIndex) hpmem
      · intro n hn hidn
        obtain ⟨li2, hli2, _, _⟩ := id_instrId (hidn.trans hdid)
        constructor
        · intro li _
          right
          exact ⟨instr.threadId, instr.lineIndex, rfl⟩
        · intro p hp
          rw [hp] at hli2
          cases hli2
      · intro n hn hidn hprop
        obtain ⟨li2, hli2, _, _⟩ := id_instrId (hidn.trans hdid)
        rw [hli2] at hprop
        simp [NodeType.isPropagate] at hprop
      · exact hGk
    refine ih _ ?_ (fun d2 hd2 => hds d2 (List.mem_cons_of_mem d hd2)) hpmem hstep
    rw [addDependency_instr_map, hmapk]

/-- The propagate-order fold of `remove_node` preserves the invariants, the
new Propagate node staying the last node of the list. -/
theorem foldl_prop_GInv (g3 : DependencyGraph) (instr : LabeledInstruction)
    (toLoc : Reference) :
    ∀ (ds : List NodeId) (gk : DependencyGraph),
      (gk.nodes.map (fun n => n.instruction) = g3.nodes.map (fun n => n.instruction)) →
      (∀ d ∈ ds, ∃ n ∈ g3.nodes, n.instruction.id = d ∧
        ∃ p2, n.instruction = .propagate p2 ∧
          p2.associatedWrite.lineIndex ≠ instr.lineIndex) →
      (∃ l3 lastN, gk.nodes = l3 ++ [lastN] ∧
        lastN.instruction = .propagate ⟨instr, toLoc⟩) →
      GraphInv gk →
      GraphInv (ds.foldl (fun gg d =>
        gg.addDependency (.propId instr.threadId instr.lineIndex) d) gk) := by
  intro ds
  induction ds with
  | nil => intro gk _ _ _ hGk; exact hGk
  | cons d ds ih =>
    intro gk hmapk hds hlastP hGk
    rw [List.foldl_cons]
    obtain ⟨n0, hn0, hid0, p2, hp2, hline⟩ := hds d (List.mem_cons_self d ds)
    have hdid : d = .propId p2.associatedWrite.threadId p2.associatedWrite.lineIndex := by
      rw [← hid0, hp2]
      rfl
    obtain ⟨l3, lastN, hl3, hlastInstr⟩ := hlastP
    have hlastId : lastN.instruction.id = .propId instr.threadId instr.lineIndex := by
      rw [hlastInstr]
      rfl
    have hlastMem : lastN ∈ gk.nodes := by
      rw [hl3]
      exact List.mem_append_right _ (List.mem_cons_self lastN [])
    have hstep : GraphInv (gk.addDependency (.propId instr.threadId instr.lineIndex) d) := by
      apply addDependency_GInv
      · rw [hdid]
        intro hc
        simp only [NodeId.propId.injEq] at hc
        exact hline hc.2.symm
      · exact exists_node_of_instr_map_eq hmapk
          (Q := fun nt => nt.id = d) ⟨n0, hn0, hid0⟩
      · intro n hn hidn
        obtain ⟨p3, hp3, _, _⟩ := id_propId (show n.instruction.id = _ from hidn)
        constructor
        · intro li hli
          rw [hli] at hp3
          cases hp3
        · intro p hp
          exact ⟨p2.associatedWrite.threadId, p2.associatedWrite.lineIndex, hdid⟩
      · intro n hn hidn _
        have hn_eq : n = lastN :=
          mem_unique_of_idsNodup hGk.idsNodup hn hlastMem (by rw [hidn, hlastId])
        subst hn_eq
        exact ⟨l3, hl3⟩
      · exact hGk
    refine ih _ ?_ (fun d2 hd2 => hds d2 (List.mem_cons_of_mem d hd2)) ?_ hstep
    · rw [addDependency_instr_map, hmapk]
    · obtain ⟨l4, lastN', hl4, hinstr'⟩ :=
        addDependency_last gk (.propId instr.threadId instr.lineIndex) d hl3
      exact ⟨l4, lastN', hl4, by rw [hinstr', hlastInstr]⟩

/-- Members of the unlink-and-delete result come from the original graph,
keep their instruction, and never carry the removed id. -/
theorem removal_mem (g : DependencyGraph) (nid : NodeId) (node : InstructionNode) :
    ∀ n' ∈ (g.nodes.map (fun n =>
        if n.instruction.id ∈ node.dependsOnMe then
          { n with dependsOn := n.dependsOn.filter (fun d => decide (d ≠ nid)) }
        else n)).filter (fun n => decide (n.instruction.id ≠ nid)),
      ∃ n ∈ g.nodes, n'.instruction = n.instruction ∧ n'.instruction.id ≠ nid := by
  intro n' hn'
  obtain ⟨hmem', hne⟩ := List.mem_filter.mp hn'
  obtain ⟨n, hn, rfl⟩ := List.mem_map.mp hmem'
  have hinstr : ((if n.instruction.id ∈ node.dependsOnMe then
      { n with dependsOn := n.dependsOn.filter (fun d => decide (d ≠ nid)) }
    else n) : InstructionNode).instruction = n.instruction := by
    split <;> rfl
  exact ⟨n, hn, hinstr, by simpa using hne⟩

/-- A fence-fold step chain keeps the last node last. -/
theorem foldl_fence_last (pid : NodeId) :
    ∀ (ds : List NodeId) (gk : DependencyGraph) (l3 : List InstructionNode)
      (lastN : InstructionNode), gk.nodes = l3 ++ [lastN] →
      ∃ l4 lastN', (ds.foldl (fun gg d => gg.addDependency d pid) gk).nodes
          = l4 ++ [lastN'] ∧ lastN'.instruction = lastN.instruction := by
  intro ds
  induction ds with
  | nil => intro gk l3 lastN h; exact ⟨l3, lastN, h, rfl⟩
  | cons d ds ih =>
    intro gk l3 lastN h
    rw [List.foldl_cons]
    obtain ⟨l4, lastN', h4, hinstr⟩ := addDependency_last gk d pid h
    obtain ⟨l5, lastN'', h5, hinstr'⟩ := ih _ l4 lastN' h4
    exact ⟨l5, lastN'', h5, by rw [hinstr', hinstr]⟩

/-- `remove_node` on a leaf succeeds, preserves the graph invariants, and
changes the per-thread Propagate count exactly as the removed node and the
optional spawned Propagate dictate. -/
theorem removeNode_GInv (g : DependencyGraph) (nid : NodeId) (node : InstructionNode)
    (prop : Option (LabeledInstruction × Reference)) (pso : Bool)
    (hfind : g.findNode nid = some node)
    (hleaf : node.dependsOn = [])
    (hpropid : ∀ instr toLoc, prop = some (instr, toLoc) →
      node.instruction = .instruction instr)
    (hG : GraphInv g) :
    ∃ g', g.removeNode nid prop pso = some g' ∧ GraphInv g' ∧
      (prop = none → node.instruction.isPropagate = false →
        ∀ t, g'.propagateCount t = g.propagateCount t) ∧
      (prop = none → ∀ p, node.instruction = .propagate p →
        (g'.propagateCount p.associatedWrite.threadId + 1
          = g.propagateCount p.associatedWrite.threadId) ∧
        (∀ t, t ≠ p.associatedWrite.threadId →
          g'.propagateCount t = g.propagateCount t)) ∧
      (∀ instr toLoc, prop = some (instr, toLoc) → ∀ t,
        g'.propagateCount t = g.propagateCount t
          + (if instr.threadId = t then 1 else 0)) := by
  obtain ⟨hmem, hid⟩ := findNode_eq_some hfind
  have hunique : ∀ n ∈ g.nodes, n.instruction.id = nid → n = node := fun n hn hidn =>
    mem_unique_of_idsNodup hG.idsNodup hn hmem (by rw [hidn, hid])
  set g1 : DependencyGraph := ⟨(g.nodes.map (fun n =>
      if n.instruction.id ∈ node.dependsOnMe then
        { n with dependsOn := n.dependsOn.filter (fun d => decide (d ≠ nid)) }
      else n)).filter (fun n => decide (n.instruction.id ≠ nid))⟩ with hg1
  have hG1 : GraphInv g1 := removal_core_GInv g nid node hmem hid hleaf hG
  have hFinstr : ∀ n : InstructionNode, ((if n.instruction.id ∈ node.dependsOnMe then
      { n with dependsOn := n.dependsOn.filter (fun d => decide (d ≠ nid)) }
    else n) : InstructionNode).instruction = n.instruction := by
    intro n
    split <;> rfl
  have hcount_noprop : node.instruction.isPropagate = false →
      ∀ t, g1.propagateCount t = g.propagateCount t := by
    intro hnp t
    have key := filter_length_remove_of_not
      (fun nt => nt.isPropagate && decide (nt.threadId = t)) nid _ hFinstr g.nodes
      (fun n hn hP hidn => by
        have hne := hunique n hn hidn
        subst hne
        simp [hnp] at hP)
    simpa [DependencyGraph.propagateCount, hg1] using key
  have hcount_prop : ∀ p, node.instruction = .propagate p →
      (g1.propagateCount p.associatedWrite.threadId + 1
        = g.propagateCount p.associatedWrite.threadId) ∧
      (∀ t, t ≠ p.associatedWrite.threadId →
        g1.propagateCount t = g.propagateCount t) := by
    intro p hp
    constructor
    · exact filter_length_remove_of_mem
        (fun nt => nt.isPropagate && decide (nt.threadId = p.associatedWrite.threadId))
        nid _ hFinstr g.nodes hG.idsNodup node hmem hid
        (by rw [hp]; simp [NodeType.isPropagate, NodeType.threadId])
    · intro t ht
      exact filter_length_remove_of_not
        (fun nt => nt.isPropagate && decide (nt.threadId = t)) nid _ hFinstr g.nodes
        (fun n hn hP hidn => by
          have := hunique n hn hidn
          subst this
          rw [hp] at hP
          simp only [NodeType.isPropagate, NodeType.threadId, Bool.and_eq_true,
            decide_eq_true_eq] at hP
          exact ht hP.2.symm)
  cases prop with
  | none =>
    refine ⟨g1, ?_, hG1, ?_, ?_, ?_⟩
    · simp only [DependencyGraph.removeNode, hfind, hleaf, List.isEmpty_nil]
      rfl
    · intro _ hnp t
      exact hcount_noprop hnp t
    · intro _ p hp
      exact hcount_prop p hp
    · intro instr toLoc hc
      cases hc
  | some pr =>
    obtain ⟨instr, toLoc⟩ := pr
    have hnode_instr : node.instruction = .instruction instr := hpropid instr toLoc rfl
    have hnid_eq : nid = .instrId instr.threadId instr.lineIndex := by
      rw [← hid, hnode_instr]
      rfl
    have hnode_noprop : node.instruction.isPropagate = false := by
      rw [hnode_instr]
      rfl
    -- the new Propagate node is fresh in g1
    have hfresh : ∀ m ∈ g1.nodes,
        m.instruction.id ≠ .propId instr.threadId instr.lineIndex := by
      intro m hm hc
      obtain ⟨n, hn, hinstr, _⟩ := removal_mem g nid node m hm
      have := hG.propFresh n hn instr.threadId instr.lineIndex (by rw [← hinstr]; exact hc)
        node hmem
      rw [hid, hnid_eq] at this
      exact this rfl
    have hnoinstr : ∀ m ∈ g1.nodes,
        m.instruction.id ≠ .instrId instr.threadId instr.lineIndex := by
      intro m hm
      obtain ⟨_, _, _, hne⟩ := removal_mem g nid node m hm
      rw [← hnid_eq]
      exact hne
    set g2 : DependencyGraph := g1.addPropagate instr toLoc with hg2
    have hG2 : GraphInv g2 := append_prop_GInv g1 instr toLoc hfresh hnoinstr hG1
    set ds1 : List NodeId := g2.dfsFilter (fun other =>
      match other with
      | .instruction otherInstr =>
        match otherInstr.instruction with
        | .fence _ => decide (otherInstr.threadId = instr.threadId)
        | _ => false
      | _ => false) with hds1
    set g3 : DependencyGraph := ds1.foldl (fun gg d =>
      gg.addDependency d (.propId instr.threadId instr.lineIndex)) g2 with hg3
    set ds2 : List NodeId := g3.dfsFilter (fun other =>
      match other with
      | .propagate p =>
        if pso then
          decide (p.toLocation = toLoc) &&
            decide (p.associatedWrite.threadId = instr.threadId) &&
            decide (p.associatedWrite.lineIndex ≠ instr.lineIndex)
        else
          decide (p.associatedWrite.threadId = instr.threadId) &&
            decide (p.associatedWrite.lineIndex ≠ instr.lineIndex)
      | _ => false) with hds2
    set g4 : DependencyGraph := ds2.foldl (fun gg d =>
      gg.addDependency (.propId instr.threadId instr.lineIndex) d) g3 with hg4
    have hG3 : GraphInv g3 := by
      rw [hg3]
      apply foldl_fence_GInv g2 instr
      · rfl
      · intro d hd
        have hsound := dfsFilter_sound _ _ d (hds1 ▸ hd)
        obtain ⟨n, hn, hidn, hP⟩ := hsound
        cases hni : n.instruction with
        | propagate p2 => rw [hni] at hP; simp at hP
        | instruction oi => exact ⟨n, hn, hidn, oi, hni⟩
      · refine ⟨⟨.propagate ⟨instr, toLoc⟩, [], []⟩, ?_, rfl⟩
        rw [hg2]
        exact List.mem_append_right _ (List.mem_cons_self _ [])
      · exact hG2
    have hmap32 : g3.nodes.map (fun n => n.instruction)
        = g2.nodes.map (fun n => n.instruction) := by
      rw [hg3]
      exact foldl_addDep_right_instr_map _ _ _
    have hG4 : GraphInv g4 := by
      rw [hg4]
      apply foldl_prop_GInv g3 instr toLoc
      · exact rfl
      · intro d hd
        have hsound := dfsFilter_sound _ _ d (hds2 ▸ hd)
        obtain ⟨n, hn, hidn, hP⟩ := hsound
        cases hni : n.instruction with
        | instruction li => rw [hni] at hP; simp at hP
        | propagate p2 =>
          rw [hni] at hP
          refine ⟨n, hn, hidn, p2, hni, ?_⟩
          by_cases hpso : pso = true <;> simp [hpso] at hP <;> tauto
      · refine foldl_fence_last _ _ _ g1.nodes ⟨.propagate ⟨instr, toLoc⟩, [], []⟩ ?_
        rw [hg2]
        rfl
      · exact hG3
    have hmap43 : g4.nodes.map (fun n => n.instruction)
        = g3.nodes.map (fun n => n.instruction) := by
      rw [hg4]
      exact foldl_addDep_left_instr_map _ _ _
    have hcount2 : ∀ t, g2.propagateCount t
        = g1.propagateCount t + (if instr.threadId = t then 1 else 0) := by
      intro t2
      rw [hg2]
      show ((g1.nodes ++ _).filter _).length = _
      rw [List.filter_append, List.length_append]
      congr 1
      by_cases hth : instr.threadId = t2
      · simp [NodeType.isPropagate, NodeType.threadId, hth]
      · simp [NodeType.isPropagate, NodeType.threadId, hth]
    refine ⟨g4, ?_, hG4, ?_, ?_, ?_⟩
    · simp only [DependencyGraph.removeNode, hfind, hleaf, List.isEmpty_nil]
      rfl
    · intro hc
      cases hc
    · intro hc
      cases hc
    · intro instr' toLoc' hpr t
      have heq1 : instr' = instr := by
        injection hpr with h1
        injection h1 with h1 h2
        exact h1.symm
      rw [heq1]
      calc g4.propagateCount t = g2.propagateCount t := by
              apply propagateCount_eq_of_instr_map
              rw [hmap43, hmap32]
        _ = g1.propagateCount t + (if instr.threadId = t then 1 else 0) := hcount2 t
        _ = g.propagateCount t + (if instr.threadId = t then 1 else 0) := by
              rw [hcount_noprop hnode_noprop t]

/-- A successful `remove_node` call implies the removed node was a leaf. -/
theorem removeNode_leaf {g : DependencyGraph} {nid : NodeId}
    {prop : Option (LabeledInstruction × Reference)} {pso : Bool} {g' : DependencyGraph}
    (h : g.removeNode nid prop pso = some g') :
    ∀ node, g.findNode nid = some node → node.dependsOn = [] := by
  intro node hfind
  unfold DependencyGraph.removeNode at h
  rw [hfind] at h
  cases hd : node.dependsOn with
  | nil => rfl
  | cons a l => simp [hd] at h

/-- A Propagate node of thread `t` in the graph forces a positive count. -/
theorem propagateCount_pos (g : DependencyGraph) (n : InstructionNode) (p : Propagate)
    (hn : n ∈ g.nodes) (hni : n.instruction = .propagate p) :
    1 ≤ g.propagateCount p.associatedWrite.threadId := by
  have hmemf : n ∈ g.nodes.filter (fun m =>
      m.instruction.isPropagate && decide (m.instruction.threadId
        = p.associatedWrite.threadId)) := by
    rw [List.mem_filter]
    refine ⟨hn, ?_⟩
    rw [hni]
    simp [NodeType.isPropagate, NodeType.threadId]
  exact List.length_pos_of_mem hmemf

/-- A buffered store bumps the invoking thread's buffer length by one and
leaves the other buffers alone. -/
theorem bufferLen_store (s : TSO) (addr : String) (value tid t : Nat) :
    TSO.bufferLen { s with memorySubsystem := s.memorySubsystem.store addr value tid } t
      = s.bufferLen t + (if tid = t then 1 else 0) := by
  unfold TSO.bufferLen TSOMemorySubsystem.store
  by_cases h : t = tid
  · subst h
    simp only [if_pos rfl]
    cases hb : s.memorySubsystem.buffers t with
    | none => simp [hb]
    | some ops => simp [hb]
  · have h2 : tid ≠ t := fun hc => h hc.symm
    simp [h, h2]

/-- The buffer lengths only depend on the memory subsystem. -/
theorem bufferLen_eq_of_memsub {s1 s2 : TSO}
    (h : s1.memorySubsystem = s2.memorySubsystem) (t : Nat) :
    s1.bufferLen t = s2.bufferLen t := by
  unfold TSO.bufferLen
  rw [h]

/-- Removal of an instruction-node leaf without a spawned Propagate keeps the
graph invariants and every per-thread Propagate count. -/
theorem exec_removal_none (s : TSO) (nid : NodeId) (node : InstructionNode)
    (li : LabeledInstruction) (g2 : DependencyGraph)
    (hfind : s.dependencyGraph.findNode nid = some node)
    (hni : node.instruction = .instruction li)
    (hrm : s.dependencyGraph.removeNode nid none s.isPso = some g2)
    (hG : GraphInv s.dependencyGraph) :
    GraphInv g2 ∧ ∀ t, g2.propagateCount t = s.dependencyGraph.propagateCount t := by
  have hleaf : node.dependsOn = [] := removeNode_leaf hrm node hfind
  obtain ⟨g', hrm', hG', hA, _, _⟩ := removeNode_GInv s.dependencyGraph nid node none
    s.isPso hfind hleaf (fun _ _ hc => by cases hc) hG
  rw [hrm] at hrm'
  injection hrm' with hg
  subst hg
  exact ⟨hG', fun t => hA rfl (by rw [hni]; rfl) t⟩

/-- Removal of an instruction-node leaf with a spawned Propagate keeps the
graph invariants and bumps exactly the writing thread's Propagate count. -/
theorem exec_removal_some (s : TSO) (nid : NodeId) (node : InstructionNode)
    (li : LabeledInstruction) (toLoc : Reference) (g2 : DependencyGraph)
    (hfind : s.dependencyGraph.findNode nid = some node)
    (hni : node.instruction = .instruction li)
    (hrm : s.dependencyGraph.removeNode nid (some (li, toLoc)) s.isPso = some g2)
    (hG : GraphInv s.dependencyGraph) :
    GraphInv g2 ∧ ∀ t, g2.propagateCount t
      = s.dependencyGraph.propagateCount t + (if li.threadId = t then 1 else 0) := by
  have hleaf : node.dependsOn = [] := removeNode_leaf hrm node hfind
  have hpropid : ∀ instr toLoc2,
      (some (li, toLoc) : Option (LabeledInstruction × Reference)) = some (instr, toLoc2) →
      node.instruction = .instruction instr := by
    intro instr toLoc2 h
    injection h with h1
    injection h1 with h1 h2
    rw [hni, h1]
  obtain ⟨g', hrm', hG', _, _, hC⟩ := removeNode_GInv s.dependencyGraph nid node
    (some (li, toLoc)) s.isPso hfind hleaf hpropid hG
  rw [hrm] at hrm'
  injection hrm' with hg
  subst hg
  exact ⟨hG', fun t => hC li toLoc rfl t⟩

/-- Removal of a Propagate leaf keeps the graph invariants and decrements
exactly its thread's Propagate count. -/
theorem exec_removal_prop (s : TSO) (nid : NodeId) (node : InstructionNode)
    (p : Propagate) (g2 : DependencyGraph)
    (hfind : s.dependencyGraph.findNode nid = some node)
    (hni : node.instruction = .propagate p)
    (hrm : s.dependencyGraph.removeNode nid none s.isPso = some g2)
    (hG : GraphInv s.dependencyGraph) :
    GraphInv g2 ∧
    g2.propagateCount p.associatedWrite.threadId + 1
      = s.dependencyGraph.propagateCount p.associatedWrite.threadId ∧
    ∀ t, t ≠ p.associatedWrite.threadId →
      g2.propagateCount t = s.dependencyGraph.propagateCount t := by
  have hleaf : node.dependsOn = [] := removeNode_leaf hrm node hfind
  obtain ⟨g', hrm', hG', _, hB, _⟩ := removeNode_GInv s.dependencyGraph nid node none
    s.isPso hfind hleaf (fun _ _ hc => by cases hc) hG
  rw [hrm] at hrm'
  injection hrm' with hg
  subst hg
  obtain ⟨hb1, hb2⟩ := hB rfl p hni
  exact ⟨hG', hb1, hb2⟩

/-- Every successful `exec_instruction` step preserves the full state
invariant. -/
theorem execInstruction_StateInv (s : TSO) (nid : NodeId) (s' : TSO)
    (hexec : s.execInstruction nid = some s') (hS : StateInv s) : StateInv s' := by
  obtain ⟨hG, hcnt⟩ := hS
  unfold TSO.execInstruction at hexec
  cases hfind : s.dependencyGraph.findNode nid with
  | none => rw [hfind] at hexec; cases hexec
  | some node =>
    rw [hfind] at hexec
    cases hni : node.instruction with
    | propagate p =>
      simp only [hni, NodeType.threadId] at hexec
      obtain ⟨hmem, hidn⟩ := findNode_eq_some hfind
      have hpos := propagateCount_pos s.dependencyGraph node p hmem hni
      have hbl := hcnt p.associatedWrite.threadId
      obtain ⟨w, rest, hbuf⟩ : ∃ w rest,
          s.memorySubsystem.buffers p.associatedWrite.threadId = some (w :: rest) := by
        have hbl2 : 1 ≤ s.bufferLen p.associatedWrite.threadId := by omega
        unfold TSO.bufferLen at hbl2
        generalize hb : s.memorySubsystem.buffers p.associatedWrite.threadId = ob at hbl2 ⊢
        cases ob with
        | none => simp at hbl2
        | some ops =>
          cases ops with
          | nil => simp at hbl2
          | cons w rest => exact ⟨w, rest, rfl⟩
      have hms : s.memorySubsystem.propagate p.associatedWrite.threadId
          = some ⟨s.memorySubsystem.memory.store w.addr w.value,
              fun t => if t = p.associatedWrite.threadId then some rest
                else s.memorySubsystem.buffers t⟩ := by
        unfold TSOMemorySubsystem.propagate
        rw [hbuf]
      simp only [hms] at hexec
      cases hrm : s.dependencyGraph.removeNode nid none s.isPso with
      | none => simp only [hrm] at hexec; cases hexec
      | some g2 =>
        simp only [hrm] at hexec
        injection hexec with hs'
        subst hs'
        obtain ⟨hG2, hc1, hc2⟩ := exec_removal_prop s nid node p g2 hfind hni hrm hG
        refine ⟨hG2, fun t => ?_⟩
        by_cases ht : t = p.associatedWrite.threadId
        · have hblen : s.bufferLen p.associatedWrite.threadId = rest.length + 1 := by
            unfold TSO.bufferLen
            rw [hbuf]
            simp
          have hbl0 := hcnt p.associatedWrite.threadId
          have h1 : g2.propagateCount p.associatedWrite.threadId = rest.length := by omega
          rw [ht, h1]
          simp [TSO.bufferLen]
        · have h2 := hc2 t ht
          rw [h2, hcnt t]
          simp [TSO.bufferLen, ht]
    | instruction li =>
      simp only [hni, NodeType.threadId] at hexec
      cases hli : li.instruction with
      | assignConst dst value =>
        cases dst with
        | memory m => simp only [hli] at hexec; cases hexec
        | register reg =>
          simp only [hli] at hexec
          cases hrs : s.registers.store reg value li.threadId with
          | none => simp only [hrs] at hexec; cases hexec
          | some rs =>
            simp only [hrs] at hexec
            cases hrm : s.dependencyGraph.removeNode nid none s.isPso with
            | none => simp only [hrm] at hexec; cases hexec
            | some g2 =>
              simp only [hrm] at hexec
              injection hexec with hs'
              subst hs'
              obtain ⟨hG2, hc⟩ := exec_removal_none s nid node li g2 hfind hni hrm hG
              exact ⟨hG2, fun t => by rw [hc t, hcnt t]; exact bufferLen_eq_of_memsub rfl t⟩
      | assignOperation dst lhs op rhs =>
        cases dst with
        | memory m => simp only [hli] at hexec; cases hexec
        | register reg =>
          cases lhs with
          | memory m => simp only [hli] at hexec; cases hexec
          | register reg1 =>
            cases rhs with
            | memory m => simp only [hli] at hexec; cases hexec
            | register reg2 =>
              simp only [hli] at hexec
              cases hv1 : s.registers.load reg1 li.threadId with
              | none => simp only [hv1] at hexec; cases hexec
              | some v1 =>
                simp only [hv1] at hexec
                cases hv2 : s.registers.load reg2 li.threadId with
                | none => simp only [hv2] at hexec; cases hexec
                | some v2 =>
                  simp only [hv2] at hexec
                  cases hop : op.apply v1 v2 with
                  | none => simp only [hop] at hexec; cases hexec
                  | some result =>
                    simp only [hop] at hexec
                    cases hrs : s.registers.store reg result li.threadId with
                    | none => simp only [hrs] at hexec; cases hexec
                    | some rs =>
                      simp only [hrs] at hexec
                      cases hrm : s.dependencyGraph.removeNode nid none s.isPso with
                      | none => simp only [hrm] at hexec; cases hexec
                      | some g2 =>
                        simp only [hrm] at hexec
                        injection hexec with hs'
                        subst hs'
                        obtain ⟨hG2, hc⟩ :=
                          exec_removal_none s nid node li g2 hfind hni hrm hG
                        exact ⟨hG2, fun t => by rw [hc t, hcnt t]; exact bufferLen_eq_of_memsub rfl t⟩
      | conditionalJump cond label => simp only [hli] at hexec; cases hexec
      | load mode addr dst =>
        cases addr with
        | register r => simp only [hli] at hexec; cases hexec
        | memory mem =>
          cases dst with
          | memory m2 => simp only [hli] at hexec; cases hexec
          | register reg =>
            simp only [hli] at hexec
            cases hrs : s.registers.store reg
                (s.memorySubsystem.load mem li.threadId) li.threadId with
            | none => simp only [hrs] at hexec; cases hexec
            | some rs =>
              simp only [hrs] at hexec
              cases hrm : s.dependencyGraph.removeNode nid none s.isPso with
              | none => simp only [hrm] at hexec; cases hexec
              | some g2 =>
                simp only [hrm] at hexec
                injection hexec with hs'
                subst hs'
                obtain ⟨hG2, hc⟩ := exec_removal_none s nid node li g2 hfind hni hrm hG
                exact ⟨hG2, fun t => by rw [hc t, hcnt t]; exact bufferLen_eq_of_memsub rfl t⟩
      | store mode src addr =>
        cases src with
        | memory m => simp only [hli] at hexec; cases hexec
        | register reg =>
          cases addr with
          | register r2 => simp only [hli] at hexec; cases hexec
          | memory mem =>
            simp only [hli] at hexec
            cases hval : s.registers.load reg li.threadId with
            | none => simp only [hval] at hexec; cases hexec
            | some value =>
              simp only [hval] at hexec
              cases hrm : s.dependencyGraph.removeNode nid
                  (some (li, Reference.memory mem)) s.isPso with
              | none => simp only [hrm] at hexec; cases hexec
              | some g2 =>
                simp only [hrm] at hexec
                injection hexec with hs'
                subst hs'
                obtain ⟨hG2, hc⟩ := exec_removal_some s nid node li
                  (Reference.memory mem) g2 hfind hni hrm hG
                refine ⟨hG2, fun t => ?_⟩
                calc g2.propagateCount t
                    = s.dependencyGraph.propagateCount t
                        + (if li.threadId = t then 1 else 0) := hc t
                  _ = s.bufferLen t + (if li.threadId = t then 1 else 0) := by rw [hcnt t]
                  _ = TSO.bufferLen { s with memorySubsystem :=
                        s.memorySubsystem.store mem value li.threadId } t :=
                      (bufferLen_store s mem value li.threadId t).symm
                  _ = TSO.bufferLen { s with
                        memorySubsystem := s.memorySubsystem.store mem value li.threadId
                        dependencyGraph := g2 } t := bufferLen_eq_of_memsub rfl t
      | cas dst mode addr expected desired =>
        cases dst with
        | memory m => simp only [hli] at hexec; cases hexec
        | register ref1 =>
          cases addr with
          | register r2 => simp only [hli] at hexec; cases hexec
          | memory addrN =>
            cases expected with
            | memory m3 => simp only [hli] at hexec; cases hexec
            | register reg3 =>
              cases desired with
              | memory m4 => simp only [hli] at hexec; cases hexec
              | register reg4 =>
                simp only [hli] at hexec
                cases hv3 : s.registers.load reg3 li.threadId with
                | none => simp only [hv3] at hexec; cases hexec
                | some expectedV =>
                  simp only [hv3] at hexec
                  cases hv4 : s.registers.load reg4 li.threadId with
                  | none => simp only [hv4] at hexec; cases hexec
                  | some desiredV =>
                    simp only [hv4] at hexec
                    by_cases hcond :
                        s.memorySubsystem.load addrN li.threadId = expectedV
                    · rw [if_pos hcond] at hexec
                      cases hrs : s.registers.store ref1
                          (s.memorySubsystem.load addrN li.threadId) li.threadId with
                      | none => simp only [hrs] at hexec; cases hexec
                      | some rs =>
                        simp only [hrs] at hexec
                        cases hrm : s.dependencyGraph.removeNode nid
                            (some (li, Reference.memory addrN)) s.isPso with
                        | none => simp only [hrm] at hexec; cases hexec
                        | some g2 =>
                          simp only [hrm] at hexec
                          injection hexec with hs'
                          subst hs'
                          obtain ⟨hG2, hc⟩ := exec_removal_some s nid node li
                            (Reference.memory addrN) g2 hfind hni hrm hG
                          refine ⟨hG2, fun t => ?_⟩
                          calc g2.propagateCount t
                              = s.dependencyGraph.propagateCount t
                                  + (if li.threadId = t then 1 else 0) := hc t
                            _ = s.bufferLen t
                                  + (if li.threadId = t then 1 else 0) := by rw [hcnt t]
                            _ = TSO.bufferLen { s with memorySubsystem :=
                                  s.memorySubsystem.store addrN desiredV li.threadId } t :=
                                (bufferLen_store s addrN desiredV li.threadId t).symm
                            _ = TSO.bufferLen { s with
                                  memorySubsystem :=
                                    s.memorySubsystem.store addrN desiredV li.threadId
                                  registers := rs
                                  dependencyGraph := g2 } t :=
                                bufferLen_eq_of_memsub rfl t
                    · rw [if_neg hcond] at hexec
                      cases hrs : s.registers.store ref1
                          (s.memorySubsystem.load addrN li.threadId) li.threadId with
                      | none => simp only [hrs] at hexec; cases hexec
                      | some rs =>
                        simp only [hrs] at hexec
                        cases hrm : s.dependencyGraph.removeNode nid none s.isPso with
                        | none => simp only [hrm] at hexec; cases hexec
                        | some g2 =>
                          simp only [hrm] at hexec
                          injection hexec with hs'
                          subst hs'
                          obtain ⟨hG2, hc⟩ :=
                            exec_removal_none s nid node li g2 hfind hni hrm hG
                          exact ⟨hG2, fun t => by rw [hc t, hcnt t]; exact bufferLen_eq_of_memsub rfl t⟩
      | fai dst mode addr incr =>
        cases dst with
        | memory m => simp only [hli] at hexec; cases hexec
        | register ref1 =>
          cases addr with
          | register r2 => simp only [hli] at hexec; cases hexec
          | memory addrN =>
            cases incr with
            | memory m3 => simp only [hli] at hexec; cases hexec
            | register reg3 =>
              simp only [hli] at hexec
              cases hv : s.registers.load reg3 li.threadId with
              | none => simp only [hv] at hexec; cases hexec
              | some incrementBy =>
                simp only [hv] at hexec
                cases hrs : s.registers.store ref1
                    (s.memorySubsystem.load addrN li.threadId) li.threadId with
                | none => simp only [hrs] at hexec; cases hexec
                | some rs =>
                  simp only [hrs] at hexec
                  cases hrm : s.dependencyGraph.removeNode nid
                      (some (li, Reference.memory addrN)) s.isPso with
                  | none => simp only [hrm] at hexec; cases hexec
                  | some g2 =>
                    simp only [hrm] at hexec
                    injection hexec with hs'
                    subst hs'
                    obtain ⟨hG2, hc⟩ := exec_removal_some s nid node li
                      (Reference.memory addrN) g2 hfind hni hrm hG
                    refine ⟨hG2, fun t => ?_⟩
                    calc g2.propagateCount t
                        = s.dependencyGraph.propagateCount t
                            + (if li.threadId = t then 1 else 0) := hc t
                      _ = s.bufferLen t
                            + (if li.threadId = t then 1 else 0) := by rw [hcnt t]
                      _ = TSO.bufferLen { s with
                            memorySubsystem :=
                              s.memorySubsystem.store addrN
                                (s.memorySubsystem.load addrN li.threadId + incrementBy)
                                li.threadId } t :=
                          (bufferLen_store s addrN
                            (s.memorySubsystem.load addrN li.threadId + incrementBy)
                            li.threadId t).symm
                      _ = TSO.bufferLen { s with
                            memorySubsystem :=
                              s.memorySubsystem.store addrN
                                (s.memorySubsystem.load addrN li.threadId + incrementBy)
                                li.threadId
                            registers := rs
                            dependencyGraph := g2 } t :=
                          bufferLen_eq_of_memsub rfl t
      | fence mode =>
        simp only [hli] at hexec
        cases hrm : s.dependencyGraph.removeNode nid none s.isPso with
        | none => simp only [hrm] at hexec; cases hexec
        | some g2 =>
          simp only [hrm] at hexec
          injection hexec with hs'
          subst hs'
          obtain ⟨hG2, hc⟩ := exec_removal_none s nid node li g2 hfind hni hrm hG
          exact ⟨hG2, fun t => by rw [hc t, hcnt t]; exact bufferLen_eq_of_memsub rfl t⟩

/-- Every state reachable from a well-formed program load satisfies the full
state invariant. -/
theorem reach_StateInv {programs : List (List LabeledInstruction)} {pso : Bool}
    (hwf : WFPrograms programs = true) :
    ∀ s : TSO, Reach programs pso s → StateInv s := by
  intro s hreach
  induction hreach with
  | init => exact ⟨tsoNew_GInv programs pso hwf, tsoNew_countInv programs pso⟩
  | step _ hexec ih => exact execInstruction_StateInv _ _ _ hexec ih

/-- With duplicate-free ids, the id search of `nodeRank` finds exactly the
position of the unique node carrying the id. -/
theorem findIdx?_id_spec (g : DependencyGraph)
    (hnd : (g.nodes.map (fun n => n.instruction.id)).Nodup)
    (i : NodeId) (m : InstructionNode) (hm : m ∈ g.nodes)
    (hmi : m.instruction.id = i) :
    ∃ k, List.findIdx? (fun x => decide (x.instruction.id = i)) g.nodes = some k
      ∧ k < g.nodes.length ∧ g.nodes[k]? = some m := by
  have hany : g.nodes.any (fun x => decide (x.instruction.id = i)) = true := by
    rw [List.any_eq_true]
    exact ⟨m, hm, by simp [hmi]⟩
  have hsome : (List.findIdx? (fun x => decide (x.instruction.id = i)) g.nodes).isSome
      = true := by
    rw [List.findIdx?_isSome, hany]
  obtain ⟨k, hk⟩ := Option.isSome_iff_exists.mp hsome
  obtain ⟨hlt, hfi⟩ := List.findIdx?_eq_some_iff_findIdx_eq.mp hk
  have hpk := ((List.findIdx_eq hlt).mp hfi).1
  have hkmem : g.nodes[k] ∈ g.nodes := List.getElem_mem hlt
  have heqm : g.nodes[k] = m := by
    apply mem_unique_of_idsNodup hnd hkmem hm
    rw [hmi]
    simpa using hpk
  exact ⟨k, hk, hlt, by rw [List.getElem?_eq_getElem hlt, heqm]⟩

/-- Under the graph invariants, every depends-on edge strictly decreases
`nodeRank`. -/
theorem rank_lt_of_edge (g : DependencyGraph) (hG : GraphInv g) (i j : NodeId)
    (he : GraphEdge g i j) : nodeRank g j < nodeRank g i := by
  obtain ⟨n, hn, hni, hj⟩ := he
  obtain ⟨m, hm, hmj⟩ := hG.closed n hn j (Or.inl hj)
  obtain ⟨k, hfk, hklt, hgk⟩ := findIdx?_id_spec g hG.idsNodup i n hn hni
  obtain ⟨k', hfk', hklt', hgk'⟩ := findIdx?_id_spec g hG.idsNodup j m hm hmj
  have hnk : g.nodes[k] = n := by
    rw [List.getElem?_eq_getElem hklt] at hgk
    injection hgk
  have hmk : g.nodes[k'] = m := by
    rw [List.getElem?_eq_getElem hklt'] at hgk'
    injection hgk'
  unfold nodeRank
  rw [hfk, hfk']
  cases hni2 : n.instruction with
  | instruction li =>
    have hieq : i = .instrId li.threadId li.lineIndex := by
      rw [← hni, hni2]
      rfl
    rcases hG.instrShape n hn li hni2 j hj with ⟨l2, hl2, hjeq⟩ | ⟨t2, l2, hjeq⟩
    · simp only [hieq, hjeq]
      omega
    · simp only [hieq, hjeq]
      omega
  | propagate p =>
    have hieq : i = .propId p.associatedWrite.threadId p.associatedWrite.lineIndex := by
      rw [← hni, hni2]
      rfl
    obtain ⟨t2, l2, hjeq⟩ := hG.propShape n hn p hni2 j hj
    simp only [hieq, hjeq]
    -- remains: k' < k, by the Pairwise ordering of Propagate edges
    by_contra hge
    push_neg at hge
    rcases Nat.lt_or_ge k k' with hlt | hge2
    · have hPW := List.pairwise_iff_getElem.mp hG.propOrder k k' hklt hklt' hlt
      rw [hnk, hmk] at hPW
      exact hPW (by rw [hni2]; rfl) (hmj ▸ hj)
    · have hkk : k' = k := by omega
      subst hkk
      have hnm : n = m := by rw [← hnk, ← hmk]
      have hji : j = i := by rw [← hmj, ← hnm, hni]
      exact hG.noSelf n hn (by rw [hni, ← hji]; exact hj)

/-- Chains of depends-on edges strictly decrease `nodeRank`. -/
theorem transGen_rank_lt (g : DependencyGraph) (hG : GraphInv g) :
    ∀ i j, Relation.TransGen (GraphEdge g) i j → nodeRank g j < nodeRank g i := by
  intro i j h
  induction h with
  | single he => exact rank_lt_of_edge g hG _ _ he
  | tail _ he ih => exact lt_trans (rank_lt_of_edge g hG _ _ he) ih

/-- A graph satisfying the invariants has no depends-on cycle. -/
theorem no_cycle_of_GInv (g : DependencyGraph) (hG : GraphInv g) :
    ∀ i, ¬ Relation.TransGen (GraphEdge g) i i := fun i h =>
  lt_irrefl _ (transGen_rank_lt g hG i i h)

/-- C5: in every reachable dependency graph — the graph built by `TSO::new`
and the graph after any sequence of successful `exec_instruction` steps —
edges are symmetric (`B.id ∈ A.depends_on` iff `A.id ∈ B.depends_on_me`), no
`depends_on` or `depends_on_me` list contains duplicates, and
`add_dependency` for an edge that is already present leaves the graph
unchanged. -/
theorem c5_edges_symmetric_nodup_noop
    (programs : List (List LabeledInstruction)) (pso : Bool) (s : TSO)
    (hwf : WFPrograms programs = true) (hr : Reach programs pso s) :
    (∀ a ∈ s.dependencyGraph.nodes, ∀ b ∈ s.dependencyGraph.nodes,
      (b.instruction.id ∈ a.dependsOn ↔ a.instruction.id ∈ b.dependsOnMe)) ∧
    (∀ n ∈ s.dependencyGraph.nodes, n.dependsOn.Nodup ∧ n.dependsOnMe.Nodup) ∧
    (∀ a b fnode, s.dependencyGraph.findNode a = some fnode → b ∈ fnode.dependsOn →
      s.dependencyGraph.addDependency a b = s.dependencyGraph) := by
  have hS := reach_StateInv hwf s hr
  exact ⟨hS.1.symEdge, hS.1.edgesNodup,
    fun a b fnode hf hb => addDependency_noop _ a b fnode hf hb⟩

/-- C5 witness: the theorem applied to the freshly constructed graph of the
single-thread fence program. -/
theorem c5_edges_symmetric_nodup_noop_witness :
    WFPrograms [fenceProgram] = true ∧
    ((∀ a ∈ (TSO.new [fenceProgram] false).dependencyGraph.nodes,
        ∀ b ∈ (TSO.new [fenceProgram] false).dependencyGraph.nodes,
        (b.instruction.id ∈ a.dependsOn ↔ a.instruction.id ∈ b.dependsOnMe)) ∧
      (∀ n ∈ (TSO.new [fenceProgram] false).dependencyGraph.nodes,
        n.dependsOn.Nodup ∧ n.dependsOnMe.Nodup) ∧
      (∀ a b fnode,
        (TSO.new [fenceProgram] false).dependencyGraph.findNode a = some fnode →
        b ∈ fnode.dependsOn →
        (TSO.new [fenceProgram] false).dependencyGraph.addDependency a b
          = (TSO.new [fenceProgram] false).dependencyGraph)) :=
  ⟨by decide,
    c5_edges_symmetric_nodup_noop [fenceProgram] false _ (by decide) Reach.init⟩

/-- C6: every reachable dependency graph — after initial construction and
after any sequence of leaf executions with Propagate-node creation — is
acyclic: no node id reaches itself through one or more `depends_on` edges. -/
theorem c6_dependency_graph_acyclic
    (programs : List (List LabeledInstruction)) (pso : Bool) (s : TSO)
    (hwf : WFPrograms programs = true) (hr : Reach programs pso s) :
    ∀ i, ¬ Relation.TransGen (GraphEdge s.dependencyGraph) i i := by
  have hS := reach_StateInv hwf s hr
  exact no_cycle_of_GInv _ hS.1

/-- C6 witness: the theorem applied to the freshly constructed PSO graph of
the two-store program. -/
theorem c6_dependency_graph_acyclic_witness :
    WFPrograms [twoStoreProgram] = true ∧
    ∀ i, ¬ Relation.TransGen
      (GraphEdge (TSO.new [twoStoreProgram] true).dependencyGraph) i i :=
  ⟨by decide,
    c6_dependency_graph_acyclic [twoStoreProgram] true _ (by decide) Reach.init⟩

/-- C10: in every reachable TSO/PSO state the number of Propagate nodes of
each thread in the dependency graph equals the number of pending writes in
that thread's store buffer; consequently whenever the graph holds a Propagate
node, its thread's buffer is non-empty (so `pop_front` never sees an empty
queue), and executing a Propagate leaf succeeds. -/
theorem c10_propagate_count_eq_buffer
    (programs : List (List LabeledInstruction)) (pso : Bool) (s : TSO)
    (hwf : WFPrograms programs = true) (hr : Reach programs pso s) :
    (∀ t, s.dependencyGraph.propagateCount t = s.bufferLen t) ∧
    (∀ nid node p, s.dependencyGraph.findNode nid = some node →
      node.instruction = .propagate p →
      (∃ w rest,
        s.memorySubsystem.buffers p.associatedWrite.threadId = some (w :: rest)) ∧
      (node.dependsOn = [] → (s.execInstruction nid).isSome = true)) := by
  obtain ⟨hG, hcnt⟩ := reach_StateInv hwf s hr
  refine ⟨hcnt, ?_⟩
  intro nid node p hfind hni
  obtain ⟨hmem, hidn⟩ := findNode_eq_some hfind
  have hpos := propagateCount_pos s.dependencyGraph node p hmem hni
  have hbl := hcnt p.associatedWrite.threadId
  obtain ⟨w, rest, hbuf⟩ : ∃ w rest,
      s.memorySubsystem.buffers p.associatedWrite.threadId = some (w :: rest) := by
    have hbl2 : 1 ≤ s.bufferLen p.associatedWrite.threadId := by omega
    unfold TSO.bufferLen at hbl2
    generalize hb : s.memorySubsystem.buffers p.associatedWrite.threadId = ob at hbl2 ⊢
    cases ob with
    | none => simp at hbl2
    | some ops =>
      cases ops with
      | nil => simp at hbl2
      | cons w rest => exact ⟨w, rest, rfl⟩
  refine ⟨⟨w, rest, hbuf⟩, ?_⟩
  intro hleaf
  have hms : s.memorySubsystem.propagate p.associatedWrite.threadId
      = some ⟨s.memorySubsystem.memory.store w.addr w.value,
          fun t => if t = p.associatedWrite.threadId then some rest
            else s.memorySubsystem.buffers t⟩ := by
    unfold TSOMemorySubsystem.propagate
    rw [hbuf]
  obtain ⟨g', hrm, _, _, _, _⟩ := removeNode_GInv s.dependencyGraph nid node none
    s.isPso hfind hleaf (fun _ _ hc => by cases hc) hG
  unfold TSO.execInstruction
  rw [hfind]
  simp only [hni, NodeType.threadId, hms, hrm]
  rfl

/-- C10 witness: the theorem applied to the state obtained by executing the
single buffered store of `oneStoreProgram`, whose graph holds one Propagate
node and whose thread-0 buffer holds one pending write. -/
theorem c10_propagate_count_eq_buffer_witness :
    WFPrograms [oneStoreProgram] = true ∧
    ∃ s', (TSO.new [oneStoreProgram] false).execInstruction (.instrId 0 0) = some s' ∧
      ((∀ t, s'.dependencyGraph.propagateCount t = s'.bufferLen t) ∧
       (∀ nid node p, s'.dependencyGraph.findNode nid = some node →
          node.instruction = .propagate p →
          (∃ w rest,
            s'.memorySubsystem.buffers p.associatedWrite.threadId = some (w :: rest)) ∧
          (node.dependsOn = [] → (s'.execInstruction nid).isSome = true))) := by
  refine ⟨by decide, ?_⟩
  cases hex : (TSO.new [oneStoreProgram] false).execInstruction (.instrId 0 0) with
  | none =>
    have hs : ((TSO.new [oneStoreProgram] false).execInstruction
        (.instrId 0 0)).isSome = true := by decide
    rw [hex] at hs
    cases hs
  | some s1 =>
    exact ⟨s1, rfl,
      c10_propagate_count_eq_buffer [oneStoreProgram] false s1 (by decide)
        (Reach.step Reach.init hex)⟩

end ISAInterp
